import Mathlib

/-!
Verification of the dirsync repository model: the content-addressed directory
index (`LocalDirectoryRepository` in
`dirsync/entity/core/repository/local/localdirrepo.py`), the file objects
(`dirsync/entity/core/file/local/localfile.py` and the abstract base in
`dirsync/entity/core/file/file.py`), and the synchronization loop
(`dirsync/infra/execute.py`).

Modelling conventions:
* Python `str` is embedded as `List Char` (named `Str` below); Python `bytes`
  as `List Nat`.
* Python `dict` (insertion ordered, unique keys) is embedded as an association
  list; `alSet` updates the first entry holding the key in place or appends a
  fresh entry at the end, `alDel` removes the entry, exactly like `d[k] = v`
  and `del d[k]`.
* Python objects (`LocalFile` instances) are mutable and aliased between the
  two repository indices, so the state carries an object heap `objs` mapping
  numeric object identities to `LocalFile` records; both indices store
  identities, and `list.remove` (which compares by identity for `LocalFile`)
  is `List.erase` on identities.
* The repository root is placed at the empty path, so a file's absolute path
  and its root-relative path coincide; `os.walk` enumeration order is the
  order of the `files` association list of the modelled filesystem.
* The BLAKE2b digest is modelled as an injective encoding of the content into
  a space-free string, reflecting the spec's stance that hash collisions have
  probability zero; the chunked folding of the real digest is irrelevant to
  every claim.
* Filesystem reads that Python would fail with `FileNotFoundError` are given
  the default `[]`; each claim below only reads files that exist.
-/

namespace Dirsync

abbrev Str := List Char
abbrev Bytes := List Nat

/-- Association-list lookup, the embedding of Python `d[k]` / `k in d`. -/
def alGet {κ α : Type} [DecidableEq κ] : List (κ × α) → κ → Option α
  | [], _ => none
  | e :: es, k => if e.1 = k then some e.2 else alGet es k

/-- Association-list update, the embedding of Python `d[k] = v`: replaces the
first entry with key `k` in place, or appends a new entry. -/
def alSet {κ α : Type} [DecidableEq κ] : List (κ × α) → κ → α → List (κ × α)
  | [], k, v => [(k, v)]
  | e :: es, k, v => if e.1 = k then (k, v) :: es else e :: alSet es k v

/-- Association-list deletion, the embedding of Python `del d[k]`. -/
def alDel {κ α : Type} [DecidableEq κ] : List (κ × α) → κ → List (κ × α)
  | [], _ => []
  | e :: es, k => if e.1 = k then es else e :: alDel es k

/-- Keys of an association list, in order. -/
def alKeys {κ α : Type} (m : List (κ × α)) : List κ := m.map (fun e => e.1)

/-- Embedding of Python `'sep'.split` for a one-character separator: splits at
every occurrence, keeping empty fragments. -/
def pySplit (sep : Char) : Str → List Str
  | [] => [[]]
  | c :: rest =>
    match pySplit sep rest with
    | [] => [[]]
    | t :: ts => if c = sep then [] :: t :: ts else (c :: t) :: ts

/-- Path segments of a relative path, split at the OS separator. -/
def splitSegs (p : Str) : List Str := pySplit '/' p

/-- Joins path segments with the OS separator. -/
def joinSegs (ss : List Str) : Str := List.intercalate ['/'] ss

/-- Directory holding a path: all segments but the last, joined. The
repository root is the empty path. -/
def dirname (p : Str) : Str := joinSegs (splitSegs p).dropLast

/-- Proper ancestor directories of a path, outermost first, as created by
`os.makedirs` on the dirname of a path being written. -/
def parentDirsOf (p : Str) : List Str :=
  (List.range (splitSegs p).length.pred).map
    (fun i => joinSegs ((splitSegs p).take (i + 1)))

/-- Unary digit block used by the modelled digest. -/
def natTallies (n : Nat) : Str := List.replicate n 'i'

/-- Modelled BLAKE2b digest: an injective, space-free encoding of the bytes
(see the module header). `LocalFile.calculate_blake2b_hash` folds the real
digest over 4096-byte chunks; every claim depends only on digest equality. -/
def blake2b (b : Bytes) : Str := 'h' :: b.flatMap (fun n => 'x' :: natTallies n)

/-- On-disk state of one repository root: regular files (path to bytes, in
`os.walk` order) and the directories under the root (the root itself, the
empty path, is not listed). -/
structure FileSys where
  files : List (Str × Bytes)
  dirs : List Str
deriving DecidableEq

def fsGet (fs : FileSys) (p : Str) : Option Bytes := alGet fs.files p

/-- Embedding of `os.path.isfile` inside the repository root. -/
def fsIsFile (fs : FileSys) (p : Str) : Bool := (fsGet fs p).isSome

def fsWrite (fs : FileSys) (p : Str) (b : Bytes) : FileSys :=
  { fs with files := alSet fs.files p b }

def fsRemove (fs : FileSys) (p : Str) : FileSys :=
  { fs with files := alDel fs.files p }

/-- Adds each directory of the second list that is not already present, in
order, as `os.makedirs` does for a chain of missing ancestors. -/
def addMissingDirs (ds : List Str) : List Str → List Str
  | [] => ds
  | d :: rest =>
    if d ∈ ds then addMissingDirs ds rest else addMissingDirs (ds ++ [d]) rest

/-- Embedding of the `os.makedirs` calls guarding every write: records each
missing ancestor directory of the target path. -/
def fsMakedirs (fs : FileSys) (p : Str) : FileSys :=
  { fs with dirs := addMissingDirs fs.dirs (parentDirsOf p) }

/-- Embedding of `LocalFile` (localfile.py): absolute path, root-relative
path, and the digest of the bytes before the last edit. -/
structure LocalFile where
  abs_path : Str
  rel_path : Str
  last_hash : Str
deriving DecidableEq

/-- Value computed by `LocalFile.__init__`: stores both paths and runs
`calculate_blake2b_hash` on the on-disk bytes. In Python this constructor
cannot actually run, see `localFileMissingAbstract` below. -/
def mkLocalFile (fs : FileSys) (absp relp : Str) : LocalFile :=
  ⟨absp, relp, blake2b ((fsGet fs absp).getD [])⟩

/-- Embedding of the `LocalDirectoryRepositoryState` enum. -/
inductive LocalDirectoryRepositoryState where
  | INIT | READ | CREATE | MODIFY | MOVE | COPY | DELETE | PRUNE | GET
deriving DecidableEq

/-- Embedding of `LocalDirectoryRepository` together with its directory tree
and the heap of `LocalFile` objects it has allocated (`objs`, keyed by object
identity; `nextId` is the next fresh identity). -/
structure LocalDirectoryRepository where
  fs : FileSys
  objs : List (Nat × LocalFile)
  nextId : Nat
  filepath_file_map : List (Str × Nat)
  hash_file_map : List (Str × List Nat)
  last_action : LocalDirectoryRepositoryState
deriving DecidableEq

/-- Dereferences an object identity in the heap. -/
def getObj (s : LocalDirectoryRepository) (fid : Nat) : LocalFile :=
  (alGet s.objs fid).getD ⟨[], [], []⟩

/-- Embedding of `LocalDirectoryRepository.__init__` over a directory tree.
The constructor's logfile / non-empty-destination checks concern `Config`
validation and are outside every claim. -/
def newRepository (fs : FileSys) : LocalDirectoryRepository :=
  { fs := fs, objs := [], nextId := 0, filepath_file_map := [],
    hash_file_map := [], last_action := .INIT }

/-- Embedding of `create_file` (localdirrepo.py lines 164-183). Note line
181 assigns `hash_file_map[hash] = [file_obj]`, replacing any existing
bucket wholesale. -/
def create_file (s : LocalDirectoryRepository) (rel_path : Str)
    (content : Bytes) : LocalDirectoryRepository :=
  let fs1 := fsWrite (fsMakedirs s.fs rel_path) rel_path content
  let file_obj := mkLocalFile fs1 rel_path rel_path
  { s with fs := fs1,
           objs := alSet s.objs s.nextId file_obj,
           nextId := s.nextId + 1,
           filepath_file_map := alSet s.filepath_file_map rel_path s.nextId,
           hash_file_map := alSet s.hash_file_map file_obj.last_hash [s.nextId],
           last_action := .CREATE }

/-- Embedding of `modify_file` (lines 185-200). `none` is the Python
`KeyError` on an untracked path, a missing old-hash bucket, or the
`ValueError` of `list.remove`; in those cases Python aborts after having
already written the file to disk. Note line 198 assigns
`hash_file_map[new_hash] = [file_obj]`, replacing any existing bucket. -/
def modify_file (s : LocalDirectoryRepository) (rel_path : Str)
    (content : Bytes) : Option LocalDirectoryRepository :=
  match alGet s.filepath_file_map rel_path with
  | none => none
  | some fid =>
    let file_obj := getObj s fid
    let old_hash := file_obj.last_hash
    let fs1 := fsWrite s.fs rel_path content
    match alGet s.hash_file_map old_hash with
    | none => none
    | some bucket =>
      if fid ∈ bucket then
        let new_hash := blake2b ((fsGet fs1 file_obj.abs_path).getD [])
        some { s with fs := fs1,
                      objs := alSet s.objs fid { file_obj with last_hash := new_hash },
                      hash_file_map :=
                        alSet (alSet s.hash_file_map old_hash (bucket.erase fid))
                          new_hash [fid],
                      last_action := .MODIFY }
      else none

/-- Embedding of `move_file` (lines 202-224). `none` is the `KeyError` /
`IndexError` on a missing or empty bucket, or the `shutil.move` failure when
the source is not on disk. The hash bucket is left untouched. -/
def move_file (s : LocalDirectoryRepository) (src_hash : Str)
    (dest_rel_path : Str) : Option LocalDirectoryRepository :=
  match alGet s.hash_file_map src_hash with
  | none => none
  | some [] => none
  | some (fid :: _) =>
    let file_obj := getObj s fid
    match fsGet s.fs file_obj.abs_path with
    | none => none
    | some content =>
      let fs1 := fsWrite (fsRemove (fsMakedirs s.fs dest_rel_path) file_obj.abs_path)
        dest_rel_path content
      some { s with fs := fs1,
                    objs := alSet s.objs fid
                      { file_obj with abs_path := dest_rel_path,
                                      rel_path := dest_rel_path },
                    filepath_file_map :=
                      alSet (alDel s.filepath_file_map file_obj.rel_path)
                        dest_rel_path fid,
                    last_action := .MOVE }

/-- Embedding of `copy_file` (lines 226-246). The fresh `LocalFile` is hashed
from the just-copied bytes and appended to the bucket of that computed hash
(line 244), which raises `KeyError` (`none` here) if that key is absent. -/
def copy_file (s : LocalDirectoryRepository) (src_hash : Str)
    (dest_rel_path : Str) : Option LocalDirectoryRepository :=
  match alGet s.hash_file_map src_hash with
  | none => none
  | some [] => none
  | some (fid :: _) =>
    let src_obj := getObj s fid
    match fsGet s.fs src_obj.abs_path with
    | none => none
    | some content =>
      let fs1 := fsWrite (fsMakedirs s.fs dest_rel_path) dest_rel_path content
      let dest_obj := mkLocalFile fs1 dest_rel_path dest_rel_path
      match alGet s.hash_file_map dest_obj.last_hash with
      | none => none
      | some b2 =>
        some { s with fs := fs1,
                      objs := alSet s.objs s.nextId dest_obj,
                      nextId := s.nextId + 1,
                      filepath_file_map :=
                        alSet s.filepath_file_map dest_rel_path s.nextId,
                      hash_file_map :=
                        alSet s.hash_file_map dest_obj.last_hash (b2 ++ [s.nextId]),
                      last_action := .COPY }

/-- Embedding of `delete_file` (lines 248-262). The bucket loses the object
but the hash key itself is never deleted, even when the bucket empties. -/
def delete_file (s : LocalDirectoryRepository) (rel_path : Str) :
    Option LocalDirectoryRepository :=
  match alGet s.filepath_file_map rel_path with
  | none => none
  | some fid =>
    let file_obj := getObj s fid
    match fsGet s.fs file_obj.abs_path with
    | none => none
    | some _ =>
      match alGet s.hash_file_map file_obj.last_hash with
      | none => none
      | some bucket =>
        if fid ∈ bucket then
          some { s with fs := fsRemove s.fs file_obj.abs_path,
                        filepath_file_map := alDel s.filepath_file_map rel_path,
                        hash_file_map :=
                          alSet s.hash_file_map file_obj.last_hash (bucket.erase fid),
                        last_action := .DELETE }
        else none

/-- Does a directory have any entry (child directory or file) in the given
tree? This is what the bottom-up `os.walk` of `prune` sees for each directory:
the listing taken before any of that directory's own descendants were removed,
hence the original tree. -/
def dirHasEntry (fs : FileSys) (d : Str) : Bool :=
  fs.dirs.any (fun d2 => decide (dirname d2 = d)) ||
    fs.files.any (fun f => decide (dirname f.1 = d))

/-- Embedding of `prune` (lines 264-282): first removes every directory whose
snapshot listing is empty (the bottom-up walk takes each listing before the
directory's descendants are processed, so the decisions read the original
tree), then removes every on-disk file whose relative path is untracked. -/
def prune (s : LocalDirectoryRepository) : LocalDirectoryRepository :=
  { s with
    fs := { files := s.fs.files.filter
              (fun f => (alGet s.filepath_file_map f.1).isSome),
            dirs := s.fs.dirs.filter (fun d => dirHasEntry s.fs d) },
    last_action := .PRUNE }

/-- Embedding of `get_file_at_path` (lines 152-156): sets `last_action` to
GET and looks the path up; `none` is the Python `KeyError`. -/
def get_file_at_path (s : LocalDirectoryRepository) (rel_path : Str) :
    LocalDirectoryRepository × Option LocalFile :=
  ({ s with last_action := .GET },
   (alGet s.filepath_file_map rel_path).map (getObj s))

/-- Serialized change record, the embedding of the f-strings of
`update_status`: `command` ++ ' ' ++ `hash` ++ ' -> ' ++ `rel_path`. -/
def mkChange (cmd file_hash relp : Str) : Str :=
  cmd ++ ' ' :: (file_hash ++ (' ' :: '-' :: '>' :: ' ' :: relp))

/-- One step of the first `update_status` loop for a path not yet in
`filepath_file_map` (localdirrepo.py lines 101-125): allocates the
`LocalFile`, registers the path, and classifies create / copy / move by
probing the bucket of the new digest for a member still on disk. -/
def scanNewFile (s : LocalDirectoryRepository) (moved changes : List Str)
    (relp : Str) : LocalDirectoryRepository × List Str × List Str :=
  let new_file := mkLocalFile s.fs relp relp
  let fid := s.nextId
  let s1 := { s with objs := alSet s.objs fid new_file,
                     nextId := s.nextId + 1,
                     filepath_file_map := alSet s.filepath_file_map relp fid }
  match alGet s.hash_file_map new_file.last_hash with
  | some bucket =>
    match bucket.find? (fun oid => fsIsFile s.fs (getObj s oid).abs_path) with
    | some _ =>
      let cmd := if s.last_action = .INIT then "create".toList else "copy".toList
      let hm := alSet s.hash_file_map new_file.last_hash (bucket ++ [fid])
      ({ s1 with hash_file_map := hm },
       moved, changes ++ [mkChange cmd new_file.last_hash relp])
    | none =>
      let hm := alSet s.hash_file_map new_file.last_hash (bucket ++ [fid])
      ({ s1 with hash_file_map := hm },
       moved ++ [new_file.last_hash],
       changes ++ [mkChange "move".toList new_file.last_hash relp])
  | none =>
    ({ s1 with hash_file_map := alSet s.hash_file_map new_file.last_hash [fid] },
     moved, changes ++ [mkChange "create".toList new_file.last_hash relp])

/-- One step of the first `update_status` loop for a tracked path (lines
126-138): recomputes the digest (mutating the object's `last_hash`), and on a
change moves the object out of its old bucket (never deleting the emptied
key) into the bucket of the new digest, emitting modify or copy. The `none`
arms mirror branches where Python would raise and are unreachable from
consistent states. -/
def scanKnownFile (s : LocalDirectoryRepository) (changes : List Str)
    (relp : Str) : LocalDirectoryRepository × List Str :=
  match alGet s.filepath_file_map relp with
  | none => (s, changes)
  | some fid =>
    let file := getObj s fid
    let file_last_hash := file.last_hash
    let file_new_hash := blake2b ((fsGet s.fs file.abs_path).getD [])
    let s1 := { s with objs := alSet s.objs fid { file with last_hash := file_new_hash } }
    if file_last_hash = file_new_hash then (s1, changes)
    else
      match alGet s.hash_file_map file_last_hash with
      | none => (s1, changes)
      | some bucket =>
        let hm1 := alSet s.hash_file_map file_last_hash (bucket.erase fid)
        match alGet hm1 file_new_hash with
        | none =>
          ({ s1 with hash_file_map := alSet hm1 file_new_hash [fid] },
           changes ++ [mkChange "modify".toList file_new_hash relp])
        | some b2 =>
          ({ s1 with hash_file_map := alSet hm1 file_new_hash (b2 ++ [fid]) },
           changes ++ [mkChange "copy".toList file_new_hash relp])

/-- First loop of `update_status` over the walked file paths, in discovery
order. -/
def scanFiles (s : LocalDirectoryRepository) (moved changes : List Str) :
    List Str → LocalDirectoryRepository × List Str × List Str
  | [] => (s, moved, changes)
  | relp :: rest =>
    if (alGet s.filepath_file_map relp).isSome then
      let r := scanKnownFile s changes relp
      scanFiles r.1 moved r.2 rest
    else
      let r := scanNewFile s moved changes relp
      scanFiles r.1 r.2.1 r.2.2 rest

/-- Second loop of `update_status` (lines 140-147): iterates a snapshot of
`filepath_file_map`, drops every tracked file no longer on disk from both
indices (never deleting the emptied hash key), and logs a delete unless the
hash was recorded as moved this cycle. -/
def scanDeletePass (s : LocalDirectoryRepository) (moved changes : List Str) :
    List (Str × Nat) → LocalDirectoryRepository × List Str
  | [] => (s, changes)
  | (relp, fid) :: rest =>
    let file := getObj s fid
    if fsIsFile s.fs file.abs_path then scanDeletePass s moved changes rest
    else
      let bucket := (alGet s.hash_file_map file.last_hash).getD []
      let s1 := { s with
        filepath_file_map := alDel s.filepath_file_map relp,
        hash_file_map := alSet s.hash_file_map file.last_hash (bucket.erase fid) }
      let changes1 :=
        if file.last_hash ∈ moved then changes
        else changes ++ [mkChange "delete".toList file.last_hash relp]
      scanDeletePass s1 moved changes1 rest

/-- Embedding of `update_status` (lines 78-150): walks the tree, processes
new and known paths in discovery order, prunes vanished files, and sets
`last_action` to READ. -/
def update_status (s : LocalDirectoryRepository) :
    LocalDirectoryRepository × List Str :=
  let r1 := scanFiles s [] [] (s.fs.files.map (fun f => f.1))
  let r2 := scanDeletePass r1.1 r1.2.1 r1.2.2 r1.1.filepath_file_map
  ({ r2.1 with last_action := .READ }, r2.2)

/-! ### The synchronization loop (`dirsync/infra/execute.py`) -/

/-- Modelled from the spec: the `read` capability of the file handle returned
by `getFileAtPath` (spec section 6: `read() → bytes`). The source tree
declares `File.read` abstract (file.py) and `execute` calls it, but
`LocalFile` provides no implementation, so this body is taken from the spec:
it returns the file's on-disk bytes. -/
def localFileRead (fs : FileSys) (f : LocalFile) : Bytes :=
  (fsGet fs f.abs_path).getD []

/-- Embedding of the record parsing of `execute` (execute.py lines 22-25):
split on single spaces and take tokens 0, 1 and 3 as command, hash and
relative path. -/
def parseChange (change : Str) : Str × Str × Str :=
  let change_parts := pySplit ' ' change
  (change_parts.getD 0 [], change_parts.getD 1 [], change_parts.getD 3 [])

/-- Embedding of the replay of one source change record against the
destination (execute.py lines 27-36). The result is the updated source and
destination states plus the list of source paths whose bytes were read for
this record; `none` is an exception aborting the cycle. -/
def replayChange (src_repo dest_repo : LocalDirectoryRepository)
    (change : Str) :
    Option (LocalDirectoryRepository × LocalDirectoryRepository × List Str) :=
  let parsed := parseChange change
  let command := parsed.1
  let file_hash := parsed.2.1
  let file_loc := parsed.2.2
  if command = "create".toList then
    let g := get_file_at_path src_repo file_loc
    match g.2 with
    | none => none
    | some f =>
      some (g.1, create_file dest_repo file_loc (localFileRead g.1.fs f),
            [f.abs_path])
  else if command = "modify".toList then
    let g := get_file_at_path src_repo file_loc
    match g.2 with
    | none => none
    | some f =>
      (modify_file dest_repo file_loc (localFileRead g.1.fs f)).map
        (fun d => (g.1, d, [f.abs_path]))
  else if command = "move".toList then
    (move_file dest_repo file_hash file_loc).map (fun d => (src_repo, d, []))
  else if command = "copy".toList then
    (copy_file dest_repo file_hash file_loc).map (fun d => (src_repo, d, []))
  else if command = "delete".toList then
    (delete_file dest_repo file_loc).map (fun d => (src_repo, d, []))
  else some (src_repo, dest_repo, [])

/-- Replays a whole source change log in order, accumulating the source paths
read. -/
def replayAll (src_repo dest_repo : LocalDirectoryRepository)
    (reads : List Str) :
    List Str →
    Option (LocalDirectoryRepository × LocalDirectoryRepository × List Str)
  | [] => some (src_repo, dest_repo, reads)
  | ch :: rest =>
    match replayChange src_repo dest_repo ch with
    | none => none
    | some r => replayAll r.1 r.2.1 (reads ++ r.2.2) rest

/-- Embedding of the restore phase (execute.py lines 42-49): for every
`modify` record of the destination scan, re-read the source bytes at that
path and modify the destination file back. The logging f-string itself calls
`get_file_at_path` on the source once before the restoring call does. -/
def restoreChange (src_repo dest_repo : LocalDirectoryRepository)
    (change : Str) :
    Option (LocalDirectoryRepository × LocalDirectoryRepository × List Str) :=
  let parsed := parseChange change
  if parsed.1 = "modify".toList then
    let g1 := get_file_at_path src_repo parsed.2.2
    match g1.2 with
    | none => none
    | some _ =>
      let g2 := get_file_at_path g1.1 parsed.2.2
      match g2.2 with
      | none => none
      | some f =>
        (modify_file dest_repo parsed.2.2 (localFileRead g2.1.fs f)).map
          (fun d => (g2.1, d, [f.abs_path]))
  else some (src_repo, dest_repo, [])

/-- Runs the restore phase over the whole destination change log. -/
def restoreAll (src_repo dest_repo : LocalDirectoryRepository)
    (reads : List Str) :
    List Str →
    Option (LocalDirectoryRepository × LocalDirectoryRepository × List Str)
  | [] => some (src_repo, dest_repo, reads)
  | ch :: rest =>
    match restoreChange src_repo dest_repo ch with
    | none => none
    | some r => restoreAll r.1 r.2.1 (reads ++ r.2.2) rest

/-- One cycle of the `execute` loop: scan the source, replay its change log
onto the destination, prune the destination, scan the destination and restore
drifted files from the source. Returns the two repository states and the list
of source paths whose bytes were read; `none` is an exception aborting the
cycle. -/
def syncCycle (src_repo dest_repo : LocalDirectoryRepository) :
    Option (LocalDirectoryRepository × LocalDirectoryRepository × List Str) :=
  let u := update_status src_repo
  match replayAll u.1 dest_repo [] u.2 with
  | none => none
  | some r1 =>
    let dest2 := prune r1.2.1
    let u2 := update_status dest2
    match restoreAll r1.1 u2.1 [] u2.2 with
    | none => none
    | some r2 => some (r2.1, r2.2.1, r1.2.2 ++ r2.2.2)

/-! ### The abstract-class machinery of `File` and `LocalFile`

`File` (file.py) declares `calculate_blake2b_hash` and `read` abstract;
`LocalFile` (localfile.py) defines only `__init__` and
`calculate_blake2b_hash`. Python therefore refuses to instantiate
`LocalFile`, raising `TypeError` at every `LocalFile(...)` call. -/

/-- Names of the `@abstractmethod` members of `File` (file.py lines 3-12). -/
def fileAbstractMethods : List String := ["calculate_blake2b_hash", "read"]

/-- Names of the methods `LocalFile` defines (localfile.py). -/
def localFileMethods : List String := ["__init__", "calculate_blake2b_hash"]

/-- Abstract methods of `File` that `LocalFile` leaves unimplemented; Python
raises `TypeError` at instantiation precisely when this list is nonempty. -/
def localFileMissingAbstract : List String :=
  fileAbstractMethods.filter (fun m => ¬ localFileMethods.contains m)

/-- Python exception classes reached by the modelled code paths. -/
inductive PyError where
  | typeError | keyError | indexError
deriving DecidableEq

/-- Embedding of the Python evaluation of `LocalFile(abs_path, rel_path)`
including the abstract-class check: raises `TypeError` when an abstract
method is left unimplemented, otherwise builds the object. -/
def constructLocalFilePy (fs : FileSys) (absp relp : Str) :
    Except PyError LocalFile :=
  if localFileMissingAbstract.isEmpty then .ok (mkLocalFile fs absp relp)
  else .error .typeError

/-- Embedding of `create_file` under real Python semantics: the file is
written to disk first (that side effect survives), then line 179 constructs a
`LocalFile`; on `TypeError` the maps are never touched. The `.ok` branch
coincides with the algorithmic model `create_file`. -/
def create_file_py (s : LocalDirectoryRepository) (rel_path : Str)
    (content : Bytes) : Except PyError LocalDirectoryRepository :=
  let fs1 := fsWrite (fsMakedirs s.fs rel_path) rel_path content
  match constructLocalFilePy fs1 rel_path rel_path with
  | .error e => .error e
  | .ok _ => .ok (create_file s rel_path content)

/-- Embedding of `copy_file` under real Python semantics: the bucket lookup
and the disk copy happen first, then line 242 constructs a `LocalFile`. -/
def copy_file_py (s : LocalDirectoryRepository) (src_hash : Str)
    (dest_rel_path : Str) : Except PyError LocalDirectoryRepository :=
  match alGet s.hash_file_map src_hash with
  | none => .error .keyError
  | some [] => .error .indexError
  | some (fid :: _) =>
    let src_obj := getObj s fid
    let fs1 := fsWrite (fsMakedirs s.fs dest_rel_path) dest_rel_path
      ((fsGet s.fs src_obj.abs_path).getD [])
    match constructLocalFilePy fs1 dest_rel_path dest_rel_path with
    | .error e => .error e
    | .ok _ =>
      match copy_file s src_hash dest_rel_path with
      | some r => .ok r
      | none => .error .keyError

/-- First `update_status` loop under real Python semantics: a path not in
`filepath_file_map` reaches the `LocalFile` construction of line 102 and its
abstract-class check. -/
def scanFilesPy (s : LocalDirectoryRepository) (moved changes : List Str) :
    List Str →
    Except PyError (LocalDirectoryRepository × List Str × List Str)
  | [] => .ok (s, moved, changes)
  | relp :: rest =>
    if (alGet s.filepath_file_map relp).isSome then
      let r := scanKnownFile s changes relp
      scanFilesPy r.1 moved r.2 rest
    else
      match constructLocalFilePy s.fs relp relp with
      | .error e => .error e
      | .ok _ =>
        let r := scanNewFile s moved changes relp
        scanFilesPy r.1 r.2.1 r.2.2 rest

/-- Embedding of `update_status` under real Python semantics. -/
def update_status_py (s : LocalDirectoryRepository) :
    Except PyError (LocalDirectoryRepository × List Str) :=
  match scanFilesPy s [] [] (s.fs.files.map (fun f => f.1)) with
  | .error e => .error e
  | .ok r1 =>
    let r2 := scanDeletePass r1.1 r1.2.1 r1.2.2 r1.1.filepath_file_map
    .ok ({ r2.1 with last_action := .READ }, r2.2)

/-! ### Operation sequences and the index invariants -/

/-- One event in the life of a repository: a primitive operation, a scan, or
an external edit of the directory tree between operations (drift). -/
inductive RepoOp where
  | createOp (rel : Str) (content : Bytes)
  | modifyOp (rel : Str) (content : Bytes)
  | moveOp (h : Str) (rel : Str)
  | copyOp (h : Str) (rel : Str)
  | deleteOp (rel : Str)
  | pruneOp
  | scanOp
  | driftOp (fs : FileSys)
deriving DecidableEq

/-- Applies one event; `none` is a raised Python exception. -/
def applyOp (s : LocalDirectoryRepository) : RepoOp → Option LocalDirectoryRepository
  | .createOp rel c => some (create_file s rel c)
  | .modifyOp rel c => modify_file s rel c
  | .moveOp h rel => move_file s h rel
  | .copyOp h rel => copy_file s h rel
  | .deleteOp rel => delete_file s rel
  | .pruneOp => some (prune s)
  | .scanOp => some (update_status s).1
  | .driftOp fs => some { s with fs := fs }

/-- Applies a sequence of events in order. -/
def applySeq (s : LocalDirectoryRepository) : List RepoOp → Option LocalDirectoryRepository
  | [] => some s
  | op :: ops => (applyOp s op).bind (fun s1 => applySeq s1 ops)

/-- Bucket of a hash key, empty when the key is absent. -/
def bucketOf (s : LocalDirectoryRepository) (h : Str) : List Nat :=
  (alGet s.hash_file_map h).getD []

/-- All object identities in `hash_file_map`, bucket by bucket. -/
def bucketIds (s : LocalDirectoryRepository) : List Nat :=
  s.hash_file_map.flatMap (fun e => e.2)

/-- All object identities in `filepath_file_map`, in order. -/
def pathIds (s : LocalDirectoryRepository) : List Nat :=
  s.filepath_file_map.map (fun e => e.2)

/-- Hash-index consistency exactly as claimed (spec invariant I1): every file
of `filepath_file_map` occurs exactly once in the bucket of its current hash,
every file in any bucket is recorded in `filepath_file_map` under its
relative path, and the two indices hold the same number of entries. -/
def i1 (s : LocalDirectoryRepository) : Prop :=
  (∀ e ∈ s.filepath_file_map,
      (bucketOf s (getObj s e.2).last_hash).count e.2 = 1) ∧
  (∀ e ∈ s.hash_file_map, ∀ fid ∈ e.2,
      alGet s.filepath_file_map (getObj s fid).rel_path = some fid) ∧
  (bucketIds s).length = s.filepath_file_map.length

instance (s : LocalDirectoryRepository) : Decidable (i1 s) := by
  unfold i1; infer_instance

/-- Well-formedness of a repository state: unique keys everywhere, a heap
that covers both indices with consistent path and hash fields, fresh
`nextId`, and the two indices carrying the same objects (as a permutation of
identities). This is the inductive strengthening of `i1`. -/
def wf (s : LocalDirectoryRepository) : Prop :=
  (alKeys s.fs.files).Nodup ∧ s.fs.dirs.Nodup ∧
  (alKeys s.filepath_file_map).Nodup ∧
  (alKeys s.hash_file_map).Nodup ∧
  (alKeys s.objs).Nodup ∧
  (∀ fid ∈ alKeys s.objs, fid < s.nextId) ∧
  (∀ e ∈ s.filepath_file_map, ∃ f, alGet s.objs e.2 = some f ∧
      f.rel_path = e.1 ∧ f.abs_path = e.1) ∧
  (∀ e ∈ s.hash_file_map, ∀ fid ∈ e.2, ∃ f, alGet s.objs fid = some f ∧
      f.last_hash = e.1) ∧
  (bucketIds s).Perm (pathIds s)

instance (s : LocalDirectoryRepository) : Decidable (wf s) := by
  unfold wf; infer_instance

/-- Precondition under which one event runs without raising and without the
bucket-clobbering assignments of `create_file` / `modify_file` (lines 181 and
198) orphaning a live object: create needs an untracked path and a digest
whose bucket is empty or absent, modify needs a tracked path and a fresh
digest (or an unchanged digest with the file alone in its bucket), move and
copy need a nonempty bucket, an on-disk source and an untracked destination,
copy additionally needs the copied bytes' digest to be a present key, delete
needs a tracked on-disk path; scans, prune and well-formed drift are always
allowed. -/
def opAllowed (s : LocalDirectoryRepository) : RepoOp → Bool
  | .createOp rel c =>
    (alGet s.filepath_file_map rel).isNone && decide (bucketOf s (blake2b c) = [])
  | .modifyOp rel c =>
    match alGet s.filepath_file_map rel with
    | none => false
    | some fid =>
      if blake2b c = (getObj s fid).last_hash then
        decide (bucketOf s (blake2b c) = [fid])
      else decide (bucketOf s (blake2b c) = [])
  | .moveOp h rel =>
    match alGet s.hash_file_map h with
    | some (fid :: _) =>
      (alGet s.filepath_file_map rel).isNone &&
        fsIsFile s.fs (getObj s fid).abs_path
    | _ => false
  | .copyOp h rel =>
    match alGet s.hash_file_map h with
    | some (fid :: _) =>
      (alGet s.filepath_file_map rel).isNone &&
        (match fsGet s.fs (getObj s fid).abs_path with
         | some content => (alGet s.hash_file_map (blake2b content)).isSome
         | none => false)
    | _ => false
  | .deleteOp rel =>
    match alGet s.filepath_file_map rel with
    | some fid => fsIsFile s.fs (getObj s fid).abs_path
    | none => false
  | .pruneOp => true
  | .scanOp => true
  | .driftOp fs => decide ((alKeys fs.files).Nodup) && decide (fs.dirs.Nodup)

/-- A sequence of events each of which is allowed in the state it meets. -/
def seqAllowed (s : LocalDirectoryRepository) : List RepoOp → Bool
  | [] => true
  | op :: ops =>
    opAllowed s op &&
      (match applyOp s op with
       | some s1 => seqAllowed s1 ops
       | none => false)

/-- External edit of the directory tree between operations (drift): the
repository object is untouched, only the on-disk state changes. -/
def setFS (s : LocalDirectoryRepository) (fs : FileSys) :
    LocalDirectoryRepository :=
  { s with fs := fs }

/-- Repository state holding one tracked file, used by the C2 witness. -/
def c2CopyState : LocalDirectoryRepository :=
  { fs := ⟨[("a.txt".toList, [1])], []⟩,
    objs := [(0, ⟨"a.txt".toList, "a.txt".toList, blake2b [1]⟩)],
    nextId := 1,
    filepath_file_map := [("a.txt".toList, 0)],
    hash_file_map := [(blake2b [1], [0])],
    last_action := LocalDirectoryRepositoryState.READ }

/-- Event sequence exercising every operation kind, used by the C3 witness:
drift two files onto disk, scan, create, copy, move, modify, delete, prune,
scan again. -/
def c3WitnessOps : List RepoOp :=
  [RepoOp.driftOp ⟨[("a.txt".toList, [1]), ("d/b.txt".toList, [2])], ["d".toList]⟩,
   RepoOp.scanOp,
   RepoOp.createOp "c.txt".toList [3],
   RepoOp.copyOp (blake2b [3]) "c2.txt".toList,
   RepoOp.moveOp (blake2b [1]) "moved.txt".toList,
   RepoOp.modifyOp "d/b.txt".toList [4],
   RepoOp.deleteOp "c.txt".toList,
   RepoOp.pruneOp,
   RepoOp.scanOp]

/-- Repository state with one tracked file, one untracked file, one
populated directory and one empty directory, used by the C8 witness. -/
def c8WitnessState : LocalDirectoryRepository :=
  { newRepository ⟨[("d/t.txt".toList, [1]), ("u.txt".toList, [2])],
      ["d".toList, "e".toList]⟩ with
    filepath_file_map := [("d/t.txt".toList, 0)] }

/-! ### Association-list lemmas -/

theorem alKeys_nil {κ α : Type} : alKeys ([] : List (κ × α)) = [] := rfl

theorem alKeys_cons {κ α : Type} (e : κ × α) (m : List (κ × α)) :
    alKeys (e :: m) = e.1 :: alKeys m := rfl

theorem alGet_eq_none_iff {κ α : Type} [DecidableEq κ] (m : List (κ × α)) (k : κ) :
    alGet m k = none ↔ k ∉ alKeys m := by
  induction m with
  | nil => simp [alGet, alKeys]
  | cons e es ih =>
    rw [alKeys_cons]
    by_cases h : e.1 = k
    · subst h
      simp [alGet]
    · rw [alGet, if_neg h, ih, List.mem_cons]
      constructor
      · intro hn h2
        rcases h2 with h2 | h2
        · exact h h2.symm
        · exact hn h2
      · intro hn h2
        exact hn (Or.inr h2)

theorem alGet_mem {κ α : Type} [DecidableEq κ] {m : List (κ × α)} {k : κ} {v : α}
    (h : alGet m k = some v) : (k, v) ∈ m := by
  induction m with
  | nil => simp [alGet] at h
  | cons e es ih =>
    by_cases he : e.1 = k
    · rw [alGet, if_pos he] at h
      injection h with h2
      subst h2
      exact List.mem_cons.mpr (Or.inl (by rw [← he]))
    · rw [alGet, if_neg he] at h
      exact List.mem_cons_of_mem _ (ih h)

theorem alGet_isSome_iff {κ α : Type} [DecidableEq κ] (m : List (κ × α)) (k : κ) :
    (alGet m k).isSome ↔ k ∈ alKeys m := by
  cases hg : alGet m k with
  | none =>
    have := (alGet_eq_none_iff m k).mp hg
    simp [this]
  | some v =>
    have : k ∈ alKeys m := List.mem_map.mpr ⟨(k, v), alGet_mem hg, rfl⟩
    simp [this]

theorem alGet_of_mem {κ α : Type} [DecidableEq κ] {m : List (κ × α)} {k : κ} {v : α}
    (hm : (k, v) ∈ m) (hnd : (alKeys m).Nodup) : alGet m k = some v := by
  induction m with
  | nil => simp at hm
  | cons e es ih =>
    rw [alKeys_cons] at hnd
    rcases List.mem_cons.mp hm with h | h
    · simp [alGet, ← h]
    · have hk : k ∈ alKeys es := List.mem_map.mpr ⟨(k, v), h, rfl⟩
      have hne : e.1 ≠ k := fun he => (List.nodup_cons.mp hnd).1 (he ▸ hk)
      simp [alGet, hne, ih h (List.nodup_cons.mp hnd).2]

theorem alGet_alSet {κ α : Type} [DecidableEq κ] (m : List (κ × α)) (k : κ) (v : α)
    (k' : κ) : alGet (alSet m k v) k' = if k = k' then some v else alGet m k' := by
  induction m with
  | nil => simp [alSet, alGet]
  | cons e es ih =>
    by_cases he : e.1 = k
    · by_cases hk : k = k' <;> simp [alSet, alGet, he, hk]
    · by_cases hk : e.1 = k' <;> by_cases hkk : k = k' <;>
        simp_all [alSet, alGet]

theorem alSet_eq_append {κ α : Type} [DecidableEq κ] {m : List (κ × α)} {k : κ}
    (h : alGet m k = none) (v : α) : alSet m k v = m ++ [(k, v)] := by
  induction m with
  | nil => simp [alSet]
  | cons e es ih =>
    by_cases he : e.1 = k
    · simp [alGet, he] at h
    · simp only [alGet, if_neg he] at h
      simp [alSet, he, ih h]

theorem alSet_self {κ α : Type} [DecidableEq κ] {m : List (κ × α)} {k : κ} {v : α}
    (h : alGet m k = some v) : alSet m k v = m := by
  induction m with
  | nil => simp [alGet] at h
  | cons e es ih =>
    by_cases he : e.1 = k
    · rw [alGet, if_pos he] at h
      injection h with h2
      rw [alSet, if_pos he]
      have : (k, v) = e := by rw [← h2, ← he]
      rw [this]
    · rw [alGet, if_neg he] at h
      rw [alSet, if_neg he, ih h]

theorem perm_alDel_of_get {κ α : Type} [DecidableEq κ] {m : List (κ × α)} {k : κ}
    {v : α} (h : alGet m k = some v) : m.Perm ((k, v) :: alDel m k) := by
  induction m with
  | nil => simp [alGet] at h
  | cons e es ih =>
    by_cases he : e.1 = k
    · simp only [alGet, if_pos he] at h
      cases h
      have : e = (k, e.2) := by rw [← he]
      rw [alDel, if_pos he, ← this]
    · simp only [alGet, if_neg he] at h
      rw [alDel, if_neg he]
      exact ((ih h).cons e).trans (List.Perm.swap _ _ _)

theorem alSet_perm_alDel {κ α : Type} [DecidableEq κ] {m : List (κ × α)} {k : κ}
    {w : α} (h : alGet m k = some w) (v : α) :
    (alSet m k v).Perm ((k, v) :: alDel m k) := by
  induction m with
  | nil => simp [alGet] at h
  | cons e es ih =>
    by_cases he : e.1 = k
    · rw [alSet, if_pos he, alDel, if_pos he]
    · simp only [alGet, if_neg he] at h
      rw [alSet, if_neg he, alDel, if_neg he]
      exact ((ih h).cons e).trans (List.Perm.swap _ _ _)

theorem alDel_sublist {κ α : Type} [DecidableEq κ] (m : List (κ × α)) (k : κ) :
    (alDel m k).Sublist m := by
  induction m with
  | nil => simp [alDel]
  | cons e es ih =>
    by_cases he : e.1 = k
    · rw [alDel, if_pos he]
      exact (List.sublist_cons_self e es)
    · rw [alDel, if_neg he]
      exact ih.cons₂ e

theorem mem_alSet {κ α : Type} [DecidableEq κ] {m : List (κ × α)} {k : κ} {v : α}
    {e : κ × α} (h : e ∈ alSet m k v) : e ∈ m ∨ e = (k, v) := by
  induction m with
  | nil => simpa [alSet] using h
  | cons e2 es ih =>
    by_cases he : e2.1 = k
    · rw [alSet, if_pos he] at h
      rcases List.mem_cons.mp h with h | h
      · exact Or.inr h
      · exact Or.inl (List.mem_cons_of_mem _ h)
    · rw [alSet, if_neg he] at h
      rcases List.mem_cons.mp h with h | h
      · exact Or.inl (h ▸ List.mem_cons_self _ _)
      · rcases ih h with h | h
        · exact Or.inl (List.mem_cons_of_mem _ h)
        · exact Or.inr h

theorem alKeys_alSet_none {κ α : Type} [DecidableEq κ] {m : List (κ × α)} {k : κ}
    (h : alGet m k = none) (v : α) : alKeys (alSet m k v) = alKeys m ++ [k] := by
  rw [alSet_eq_append h v]
  simp [alKeys]

theorem alKeys_alSet_some {κ α : Type} [DecidableEq κ] {m : List (κ × α)} {k : κ}
    (h : alGet m k ≠ none) (v : α) : alKeys (alSet m k v) = alKeys m := by
  induction m with
  | nil => simp [alGet] at h
  | cons e es ih =>
    by_cases he : e.1 = k
    · rw [alSet, if_pos he, alKeys_cons, alKeys_cons, he]
    · simp only [alGet, if_neg he] at h
      rw [alSet, if_neg he, alKeys_cons, alKeys_cons, ih h]

theorem alGet_alDel_ne {κ α : Type} [DecidableEq κ] (m : List (κ × α)) {k k' : κ}
    (h : k ≠ k') : alGet (alDel m k) k' = alGet m k' := by
  induction m with
  | nil => simp [alDel]
  | cons e es ih =>
    by_cases he : e.1 = k
    · have : e.1 ≠ k' := fun h2 => h (he ▸ h2.symm ▸ rfl)
      rw [alDel, if_pos he, alGet, if_neg this]
    · rw [alDel, if_neg he]
      by_cases hk : e.1 = k' <;> simp [alGet, hk, ih]

theorem not_mem_alKeys_alDel {κ α : Type} [DecidableEq κ] {m : List (κ × α)}
    {k : κ} (hnd : (alKeys m).Nodup) : k ∉ alKeys (alDel m k) := by
  induction m with
  | nil => simp [alDel, alKeys]
  | cons e es ih =>
    rw [alKeys_cons] at hnd
    by_cases he : e.1 = k
    · rw [alDel, if_pos he]
      exact fun hk => (List.nodup_cons.mp hnd).1 (he ▸ hk)
    · rw [alDel, if_neg he, alKeys_cons]
      intro hk
      rcases List.mem_cons.mp hk with h | h
      · exact he h.symm
      · exact ih (List.nodup_cons.mp hnd).2 h

theorem alKeys_alDel_sublist {κ α : Type} [DecidableEq κ] (m : List (κ × α))
    (k : κ) : (alKeys (alDel m k)).Sublist (alKeys m) :=
  (alDel_sublist m k).map _

theorem nodup_append_singleton {α : Type} {l : List α} {a : α} (h : l.Nodup)
    (ha : a ∉ l) : (l ++ [a]).Nodup := by
  simp [List.nodup_append, h, ha]

theorem nodup_alKeys_alSet {κ α : Type} [DecidableEq κ] {m : List (κ × α)}
    {k : κ} (h : (alKeys m).Nodup) (v : α) : (alKeys (alSet m k v)).Nodup := by
  cases hg : alGet m k with
  | none =>
    rw [alKeys_alSet_none hg]
    exact nodup_append_singleton h ((alGet_eq_none_iff m k).mp hg)
  | some w =>
    rw [alKeys_alSet_some (by simp [hg]) v]
    exact h

theorem nodup_alKeys_alDel {κ α : Type} [DecidableEq κ] {m : List (κ × α)}
    {k : κ} (h : (alKeys m).Nodup) : (alKeys (alDel m k)).Nodup :=
  List.Nodup.sublist (alKeys_alDel_sublist m k) h

theorem nodup_addMissingDirs {ds : List Str} (l : List Str) (h : ds.Nodup) :
    (addMissingDirs ds l).Nodup := by
  induction l generalizing ds with
  | nil => exact h
  | cons d rest ih =>
    rw [addMissingDirs]
    by_cases hd : d ∈ ds
    · rw [if_pos hd]
      exact ih h
    · rw [if_neg hd]
      exact ih (nodup_append_singleton h hd)

theorem fsGet_fsMakedirs (fs : FileSys) (p q : Str) :
    fsGet (fsMakedirs fs p) q = fsGet fs q := rfl

theorem fsGet_fsWrite (fs : FileSys) (p : Str) (b : Bytes) (q : Str) :
    fsGet (fsWrite fs p b) q = if p = q then some b else fsGet fs q := by
  rw [fsGet, fsWrite, alGet_alSet]
  rfl

theorem flatMap_vals_append (m1 m2 : List (Str × List Nat)) :
    (m1 ++ m2).flatMap (fun e => e.2) =
      m1.flatMap (fun e => e.2) ++ m2.flatMap (fun e => e.2) :=
  List.flatMap_append m1 m2 (fun e => e.2)

theorem flatMap_vals_perm_del {m : List (Str × List Nat)} {h : Str}
    {b : List Nat} (hg : alGet m h = some b) :
    (m.flatMap (fun e => e.2)).Perm (b ++ (alDel m h).flatMap (fun e => e.2)) := by
  have hp := (perm_alDel_of_get hg).flatMap_right (fun e => e.2)
  simpa using hp

theorem flatMap_vals_perm_set {m : List (Str × List Nat)} {h : Str}
    {b : List Nat} (hg : alGet m h = some b) (b2 : List Nat) :
    ((alSet m h b2).flatMap (fun e => e.2)).Perm
      (b2 ++ (alDel m h).flatMap (fun e => e.2)) := by
  have hp := (alSet_perm_alDel hg b2).flatMap_right (fun e => e.2)
  simpa using hp

/-! ### From well-formedness to the claimed invariant I1 -/

theorem getObj_eq {s : LocalDirectoryRepository} {fid : Nat} {f : LocalFile}
    (h : alGet s.objs fid = some f) : getObj s fid = f := by
  rw [getObj, h, Option.getD_some]

theorem wf_pathIds_nodup (s : LocalDirectoryRepository) (h : wf s) :
    (pathIds s).Nodup := by
  obtain ⟨-, -, hpk, -, -, -, hpe, -, -⟩ := h
  have hnd : s.filepath_file_map.Nodup := List.Nodup.of_map _ hpk
  refine List.Nodup.map_on ?_ hnd
  intro x hx y hy hxy
  obtain ⟨fx, hfx, hfxr, -⟩ := hpe x hx
  obtain ⟨fy, hfy, hfyr, -⟩ := hpe y hy
  rw [hxy] at hfx
  rw [hfx] at hfy
  injection hfy with h2
  have : x.1 = y.1 := by rw [← hfxr, ← hfyr, h2]
  calc x = (x.1, x.2) := rfl
    _ = (y.1, y.2) := by rw [this, hxy]
    _ = y := rfl

theorem count_flatMap_of_unique {m : List (Str × List Nat)} {h : Str}
    {b : List Nat} {fid : Nat} (hnd : (alKeys m).Nodup)
    (hg : alGet m h = some b) (huniq : ∀ e ∈ m, fid ∈ e.2 → e.1 = h) :
    (m.flatMap (fun e => e.2)).count fid = b.count fid := by
  induction m with
  | nil => simp [alGet] at hg
  | cons e es ih =>
    rw [alKeys_cons] at hnd
    rw [List.flatMap_cons, List.count_append]
    by_cases he : e.1 = h
    · rw [alGet, if_pos he] at hg
      injection hg with hg
      subst hg
      have hz : (es.flatMap (fun e2 => e2.2)).count fid = 0 := by
        rw [List.count_eq_zero]
        intro hmem
        obtain ⟨e2, he2, hfid⟩ := List.mem_flatMap.mp hmem
        have h3 := huniq e2 (List.mem_cons_of_mem _ he2) hfid
        have hk : h ∈ alKeys es := List.mem_map.mpr ⟨e2, he2, h3⟩
        exact (List.nodup_cons.mp hnd).1 (he ▸ hk)
      rw [hz, Nat.add_zero]
    · rw [alGet, if_neg he] at hg
      have hz : e.2.count fid = 0 := by
        rw [List.count_eq_zero]
        intro hmem
        exact he (huniq e (List.mem_cons_self _ _) hmem)
      rw [hz, Nat.zero_add]
      exact ih (List.nodup_cons.mp hnd).2 hg
        (fun e3 he3 => huniq e3 (List.mem_cons_of_mem _ he3))

theorem wf_count_pathIds {s : LocalDirectoryRepository} (h : wf s) {p : Str}
    {fid : Nat} (hm : (p, fid) ∈ s.filepath_file_map) :
    (pathIds s).count fid = 1 :=
  List.count_eq_one_of_mem (wf_pathIds_nodup s h)
    (List.mem_map.mpr ⟨(p, fid), hm, rfl⟩)

theorem wf_i1 (s : LocalDirectoryRepository) (h : wf s) : i1 s := by
  have hperm := h.2.2.2.2.2.2.2.2
  have hcount : ∀ fid : Nat, (bucketIds s).count fid = (pathIds s).count fid :=
    fun fid => hperm.count_eq fid
  have hpk := h.2.2.1
  have hhk := h.2.2.2.1
  have hpe := h.2.2.2.2.2.2.1
  have hhe := h.2.2.2.2.2.2.2.1
  refine ⟨?_, ?_, ?_⟩
  · intro e he
    have h1 : (bucketIds s).count e.2 = 1 := by
      rw [hcount]
      exact wf_count_pathIds h (by simpa using he)
    have hmem : e.2 ∈ bucketIds s := by
      rw [← List.count_pos_iff, h1]
      exact Nat.one_pos
    obtain ⟨e2, he2, hfid⟩ := List.mem_flatMap.mp hmem
    obtain ⟨f, hf, hfh⟩ := hhe e2 he2 e.2 hfid
    have hgo : getObj s e.2 = f := getObj_eq hf
    have hguniq : ∀ e3 ∈ s.hash_file_map, e.2 ∈ e3.2 → e3.1 = e2.1 := by
      intro e3 he3 hfid3
      obtain ⟨f3, hf3, hfh3⟩ := hhe e3 he3 e.2 hfid3
      rw [hf] at hf3
      injection hf3 with hf3
      rw [← hfh3, ← hf3]
      exact hfh
    have hget : alGet s.hash_file_map e2.1 = some e2.2 :=
      alGet_of_mem (by simpa using he2) hhk
    have hloc := count_flatMap_of_unique hhk hget hguniq
    rw [hgo, hfh, bucketOf, hget, Option.getD_some, ← hloc]
    simpa [bucketIds] using h1
  · intro e he fid hfid
    obtain ⟨f, hf, hfh⟩ := hhe e he fid hfid
    have hgo : getObj s fid = f := getObj_eq hf
    have hmemb : fid ∈ bucketIds s := List.mem_flatMap.mpr ⟨e, he, hfid⟩
    have hposp : 0 < (pathIds s).count fid := by
      rw [← hcount]
      exact List.count_pos_iff.mpr hmemb
    have hmemp : fid ∈ pathIds s := List.count_pos_iff.mp hposp
    obtain ⟨ep, hep, hep2⟩ := List.mem_map.mp hmemp
    obtain ⟨fp, hfp, hfpr, -⟩ := hpe ep hep
    rw [hep2] at hfp
    rw [hf] at hfp
    injection hfp with hfp
    have hmem2 : (ep.1, fid) ∈ s.filepath_file_map := by
      rw [← hep2]
      simpa using hep
    have hres := alGet_of_mem hmem2 hpk
    rw [hgo]
    have hrp : f.rel_path = ep.1 := by rw [hfp, hfpr]
    rw [hrp]
    exact hres
  · calc (bucketIds s).length = (pathIds s).length := hperm.length_eq
      _ = s.filepath_file_map.length := List.length_map _ _

/-! ### Preservation of well-formedness by the primitive operations -/

theorem alGet_objs_nextId {s : LocalDirectoryRepository} (h : wf s) :
    alGet s.objs s.nextId = none := by
  rw [alGet_eq_none_iff]
  intro hm
  exact absurd (h.2.2.2.2.2.1 _ hm) (Nat.lt_irrefl _)

theorem wf_objs_lt {s : LocalDirectoryRepository} (h : wf s) {fid : Nat}
    {f : LocalFile} (hg : alGet s.objs fid = some f) : fid < s.nextId :=
  h.2.2.2.2.2.1 fid ((alGet_isSome_iff _ _).mp (by simp [hg]))

theorem bucketOf_get {s : LocalDirectoryRepository} {h : Str}
    (hne : bucketOf s h ≠ []) :
    alGet s.hash_file_map h = some (bucketOf s h) := by
  rw [bucketOf] at hne ⊢
  cases hg : alGet s.hash_file_map h with
  | none => rw [hg] at hne; simp at hne
  | some b => rfl

theorem wf_driftOp {s : LocalDirectoryRepository} {fs : FileSys} (h : wf s)
    (h1 : (alKeys fs.files).Nodup) (h2 : fs.dirs.Nodup) :
    wf { s with fs := fs } := by
  obtain ⟨-, -, h3, h4, h5, h6, h7, h8, h9⟩ := h
  exact ⟨h1, h2, h3, h4, h5, h6, h7, h8, h9⟩

theorem wf_prune {s : LocalDirectoryRepository} (h : wf s) : wf (prune s) := by
  obtain ⟨h1, h2, h3, h4, h5, h6, h7, h8, h9⟩ := h
  refine ⟨?_, ?_, h3, h4, h5, h6, h7, h8, h9⟩
  · exact List.Nodup.sublist ((List.filter_sublist _).map _) h1
  · exact List.Nodup.sublist (List.filter_sublist _) h2

theorem wf_create_file {s : LocalDirectoryRepository} {rel : Str} {c : Bytes}
    (h : wf s) (hrel : alGet s.filepath_file_map rel = none)
    (hbkt : bucketOf s (blake2b c) = []) : wf (create_file s rel c) := by
  have hobjn : alGet s.objs s.nextId = none := alGet_objs_nextId h
  obtain ⟨h1, h2, h3, h4, h5, h6, h7, h8, h9⟩ := h
  have hmk : mkLocalFile (fsWrite (fsMakedirs s.fs rel) rel c) rel rel =
      ⟨rel, rel, blake2b c⟩ := by
    rw [mkLocalFile, fsGet_fsWrite, if_pos rfl, Option.getD_some]
  rw [create_file]
  simp only [hmk]
  refine ⟨?_, ?_, ?_, ?_, ?_, ?_, ?_, ?_, ?_⟩
  · exact nodup_alKeys_alSet h1 c
  · exact nodup_addMissingDirs _ h2
  · exact nodup_alKeys_alSet h3 s.nextId
  · exact nodup_alKeys_alSet h4 [s.nextId]
  · exact nodup_alKeys_alSet h5 _
  · intro fid hm
    rw [alKeys_alSet_none hobjn] at hm
    rcases List.mem_append.mp hm with hm | hm
    · exact Nat.lt_succ_of_lt (h6 _ hm)
    · simp only [List.mem_singleton] at hm
      subst hm
      exact Nat.lt_succ_self _
  · intro e he
    rcases mem_alSet he with he2 | he2
    · obtain ⟨f, hf, hr, ha⟩ := h7 e he2
      have hlt : e.2 < s.nextId := wf_objs_lt ⟨h1, h2, h3, h4, h5, h6, h7, h8, h9⟩ hf
      refine ⟨f, ?_, hr, ha⟩
      rw [alGet_alSet, if_neg (fun hh => absurd hh (Nat.ne_of_gt hlt))]
      exact hf
    · subst he2
      refine ⟨⟨rel, rel, blake2b c⟩, ?_, rfl, rfl⟩
      rw [alGet_alSet, if_pos rfl]
  · intro e he fid hfid
    rcases mem_alSet he with he2 | he2
    · obtain ⟨f, hf, hh⟩ := h8 e he2 fid hfid
      have hlt : fid < s.nextId := wf_objs_lt ⟨h1, h2, h3, h4, h5, h6, h7, h8, h9⟩ hf
      refine ⟨f, ?_, hh⟩
      rw [alGet_alSet, if_neg (fun hh2 => absurd hh2 (Nat.ne_of_gt hlt))]
      exact hf
    · subst he2
      simp only [List.mem_singleton] at hfid
      subst hfid
      refine ⟨⟨rel, rel, blake2b c⟩, ?_, rfl⟩
      rw [alGet_alSet, if_pos rfl]
  · show ((alSet s.hash_file_map (blake2b c) [s.nextId]).flatMap
        (fun e => e.2)).Perm
      ((alSet s.filepath_file_map rel s.nextId).map (fun e => e.2))
    rw [alSet_eq_append hrel, List.map_append]
    cases hg : alGet s.hash_file_map (blake2b c) with
    | none =>
      rw [alSet_eq_append hg, flatMap_vals_append]
      simp only [List.flatMap_cons, List.flatMap_nil, List.append_nil]
      exact h9.append_right _
    | some b =>
      have hb : b = [] := by
        rw [bucketOf, hg, Option.getD_some] at hbkt
        exact hbkt
      subst hb
      have hp1 := flatMap_vals_perm_set hg [s.nextId]
      have hp2 := flatMap_vals_perm_del hg
      rw [List.nil_append] at hp2
      refine hp1.trans ?_
      have hdel : ((alDel s.hash_file_map (blake2b c)).flatMap
          (fun e => e.2)).Perm (pathIds s) := hp2.symm.trans h9
      refine (hdel.append_left [s.nextId]).trans ?_
      exact List.perm_append_comm

theorem wf_delete_file {s : LocalDirectoryRepository} {rel : Str} {fid : Nat}
    (h : wf s) (hg : alGet s.filepath_file_map rel = some fid)
    {b : Bytes} (hdisk : fsGet s.fs (getObj s fid).abs_path = some b) :
    ∃ s2, delete_file s rel = some s2 ∧ wf s2 := by
  obtain ⟨f, hgf, hr, ha⟩ := h.2.2.2.2.2.2.1 (rel, fid) (alGet_mem hg)
  have hgo : getObj s fid = f := getObj_eq hgf
  have hcnt : (bucketOf s f.last_hash).count fid = 1 := by
    have h2 := (wf_i1 s h).1 (rel, fid) (alGet_mem hg)
    rwa [hgo] at h2
  have hmemb : fid ∈ bucketOf s f.last_hash := by
    rw [← List.count_pos_iff, hcnt]
    exact Nat.one_pos
  have hbne : bucketOf s f.last_hash ≠ [] := fun hnil => by
    rw [hnil] at hmemb
    simp at hmemb
  have hbg := bucketOf_get hbne
  obtain ⟨h1, h2, h3, h4, h5, h6, h7, h8, h9⟩ := h
  let s2 : LocalDirectoryRepository :=
    { s with fs := fsRemove s.fs f.abs_path,
             filepath_file_map := alDel s.filepath_file_map rel,
             hash_file_map :=
               alSet s.hash_file_map f.last_hash ((bucketOf s f.last_hash).erase fid),
             last_action := .DELETE }
  refine ⟨s2, ?_, ?_⟩
  · rw [hgo] at hdisk
    rw [delete_file, hg]
    simp only [hgo, hdisk, hbg, if_pos hmemb]
  · refine ⟨?_, h2, ?_, ?_, h5, h6, ?_, ?_, ?_⟩
    · exact nodup_alKeys_alDel h1
    · exact nodup_alKeys_alDel h3
    · exact nodup_alKeys_alSet h4 _
    · intro e he
      exact h7 e (List.Sublist.mem he (alDel_sublist _ _))
    · intro e he fid2 hfid2
      rcases mem_alSet he with he2 | he2
      · exact h8 e he2 fid2 hfid2
      · subst he2
        exact h8 (f.last_hash, bucketOf s f.last_hash) (alGet_mem hbg) fid2
          (List.Sublist.mem hfid2 (List.erase_sublist _ _))
    · have hpm : (pathIds s).Perm (fid :: (alDel s.filepath_file_map rel).map
          (fun e => e.2)) := by
        have := (perm_alDel_of_get hg).map (fun e => e.2)
        simpa [pathIds] using this
      have hset := flatMap_vals_perm_set hbg ((bucketOf s f.last_hash).erase fid)
      have hdel := flatMap_vals_perm_del hbg
      have hbk : (bucketOf s f.last_hash).Perm
          (fid :: (bucketOf s f.last_hash).erase fid) :=
        List.perm_cons_erase hmemb
      have hx : (fid :: ((bucketOf s f.last_hash).erase fid ++
          (alDel s.hash_file_map f.last_hash).flatMap (fun e => e.2))).Perm
          (bucketIds s) := by
        have hy : (fid :: ((bucketOf s f.last_hash).erase fid ++
            (alDel s.hash_file_map f.last_hash).flatMap (fun e => e.2))) =
            ((fid :: (bucketOf s f.last_hash).erase fid) ++
            (alDel s.hash_file_map f.last_hash).flatMap (fun e => e.2)) := rfl
        rw [hy]
        exact ((hbk.symm.append_right _).trans hdel.symm)
      have hstep : (fid :: (alSet s.hash_file_map f.last_hash
          ((bucketOf s f.last_hash).erase fid)).flatMap (fun e => e.2)).Perm
          (fid :: (alDel s.filepath_file_map rel).map (fun e => e.2)) :=
        (hset.cons fid).trans (hx.trans (h9.trans hpm))
      exact hstep.cons_inv

theorem path_entry_eq {s : LocalDirectoryRepository} (h : wf s)
    {e1 e2 : Str × Nat} (h1 : e1 ∈ s.filepath_file_map)
    (h2 : e2 ∈ s.filepath_file_map) (hv : e1.2 = e2.2) : e1 = e2 :=
  List.inj_on_of_nodup_map (wf_pathIds_nodup s h) h1 h2 hv

theorem wf_move_file {s : LocalDirectoryRepository} {h : Str} {rel : Str}
    {fid : Nat} {rest : List Nat} (hw : wf s)
    (hg : alGet s.hash_file_map h = some (fid :: rest))
    {content : Bytes} (hdisk : fsGet s.fs (getObj s fid).abs_path = some content)
    (hdest : alGet s.filepath_file_map rel = none) :
    ∃ s2, move_file s h rel = some s2 ∧ wf s2 := by
  obtain ⟨f, hgf, hfh⟩ := hw.2.2.2.2.2.2.2.1 (h, fid :: rest) (alGet_mem hg) fid
    (List.mem_cons_self _ _)
  have hgo : getObj s fid = f := getObj_eq hgf
  have hsrc : alGet s.filepath_file_map f.rel_path = some fid := by
    have h2 := (wf_i1 s hw).2.1 (h, fid :: rest) (alGet_mem hg) fid
      (List.mem_cons_self _ _)
    rwa [hgo] at h2
  have hne : f.rel_path ≠ rel := fun he => by
    rw [he, hdest] at hsrc
    exact Option.noConfusion hsrc
  have hpnodup := wf_pathIds_nodup s hw
  obtain ⟨h1, h2, h3, h4, h5, h6, h7, h8, h9⟩ := hw
  let fobj : LocalFile := { f with abs_path := rel, rel_path := rel }
  let s2 : LocalDirectoryRepository :=
    { s with fs := fsWrite (fsRemove (fsMakedirs s.fs rel) f.abs_path) rel content,
             objs := alSet s.objs fid fobj,
             filepath_file_map := alSet (alDel s.filepath_file_map f.rel_path) rel fid,
             last_action := .MOVE }
  refine ⟨s2, ?_, ?_⟩
  · rw [hgo] at hdisk
    rw [move_file, hg]
    simp only [hgo, hdisk]
  · have hdelnone : alGet (alDel s.filepath_file_map f.rel_path) rel = none := by
      rw [alGet_alDel_ne _ hne]
      exact hdest
    refine ⟨?_, ?_, ?_, h4, ?_, ?_, ?_, ?_, ?_⟩
    · exact nodup_alKeys_alSet (nodup_alKeys_alDel h1) content
    · exact nodup_addMissingDirs _ h2
    · exact nodup_alKeys_alSet (nodup_alKeys_alDel h3) fid
    · exact nodup_alKeys_alSet h5 fobj
    · intro fid2 hm
      rw [alKeys_alSet_some (by rw [hgf]; exact fun hc => Option.noConfusion hc) fobj] at hm
      exact h6 fid2 hm
    · intro e he
      rcases mem_alSet he with he2 | he2
      · have hef : e ∈ s.filepath_file_map :=
          List.Sublist.mem he2 (alDel_sublist _ _)
        obtain ⟨f2, hf2, hr2, ha2⟩ := h7 e hef
        have hne2 : fid ≠ e.2 := by
          intro hc
          have he3 : e = (f.rel_path, fid) :=
            path_entry_eq ⟨h1, h2, h3, h4, h5, h6, h7, h8, h9⟩ hef
              (alGet_mem hsrc) (by rw [← hc])
          have : e.1 = f.rel_path := by rw [he3]
          exact (not_mem_alKeys_alDel h3)
            (this ▸ List.mem_map.mpr ⟨e, he2, rfl⟩)
        refine ⟨f2, ?_, hr2, ha2⟩
        rw [alGet_alSet, if_neg hne2]
        exact hf2
      · subst he2
        refine ⟨fobj, ?_, rfl, rfl⟩
        rw [alGet_alSet, if_pos rfl]
    · intro e he fid2 hfid2
      obtain ⟨f3, hf3, hh3⟩ := h8 e he fid2 hfid2
      by_cases hc : fid = fid2
      · subst hc
        rw [hgf] at hf3
        injection hf3 with hf3
        refine ⟨fobj, ?_, ?_⟩
        · rw [alGet_alSet, if_pos rfl]
        · show f.last_hash = e.1
          rw [← hf3] at hh3
          exact hh3
      · refine ⟨f3, ?_, hh3⟩
        rw [alGet_alSet, if_neg hc]
        exact hf3
    · show (bucketIds s).Perm ((alSet (alDel s.filepath_file_map f.rel_path)
        rel fid).map (fun e => e.2))
      rw [alSet_eq_append hdelnone, List.map_append]
      have hpm : (pathIds s).Perm (fid :: (alDel s.filepath_file_map f.rel_path).map
          (fun e => e.2)) := by
        have := (perm_alDel_of_get hsrc).map (fun e => e.2)
        simpa [pathIds] using this
      refine (h9.trans hpm).trans ?_
      have hmr : (List.map (fun e => e.2) [(rel, fid)] : List Nat) = [fid] := rfl
      rw [hmr]
      show ([fid] ++ List.map (fun e => e.2)
        (alDel s.filepath_file_map f.rel_path)).Perm _
      exact List.perm_append_comm

theorem wf_copy_file {s : LocalDirectoryRepository} {h : Str} {rel : Str}
    {fid : Nat} {rest : List Nat} (hw : wf s)
    (hg : alGet s.hash_file_map h = some (fid :: rest))
    {content : Bytes} (hdisk : fsGet s.fs (getObj s fid).abs_path = some content)
    (hdest : alGet s.filepath_file_map rel = none)
    {b2 : List Nat} (hkey : alGet s.hash_file_map (blake2b content) = some b2) :
    ∃ s2, copy_file s h rel = some s2 ∧ wf s2 := by
  have hobjn : alGet s.objs s.nextId = none := alGet_objs_nextId hw
  obtain ⟨h1, h2, h3, h4, h5, h6, h7, h8, h9⟩ := hw
  have hmk : mkLocalFile (fsWrite (fsMakedirs s.fs rel) rel content) rel rel =
      ⟨rel, rel, blake2b content⟩ := by
    rw [mkLocalFile, fsGet_fsWrite, if_pos rfl, Option.getD_some]
  let s2 : LocalDirectoryRepository :=
    { s with fs := fsWrite (fsMakedirs s.fs rel) rel content,
             objs := alSet s.objs s.nextId ⟨rel, rel, blake2b content⟩,
             nextId := s.nextId + 1,
             filepath_file_map := alSet s.filepath_file_map rel s.nextId,
             hash_file_map :=
               alSet s.hash_file_map (blake2b content) (b2 ++ [s.nextId]),
             last_action := .COPY }
  refine ⟨s2, ?_, ?_⟩
  · rw [copy_file, hg]
    simp only [hdisk, hmk, hkey]
  · refine ⟨?_, ?_, ?_, ?_, ?_, ?_, ?_, ?_, ?_⟩
    · exact nodup_alKeys_alSet h1 content
    · exact nodup_addMissingDirs _ h2
    · exact nodup_alKeys_alSet h3 s.nextId
    · exact nodup_alKeys_alSet h4 _
    · exact nodup_alKeys_alSet h5 _
    · intro fid2 hm
      rw [alKeys_alSet_none hobjn] at hm
      rcases List.mem_append.mp hm with hm | hm
      · exact Nat.lt_succ_of_lt (h6 _ hm)
      · simp only [List.mem_singleton] at hm
        subst hm
        exact Nat.lt_succ_self _
    · intro e he
      rcases mem_alSet he with he2 | he2
      · obtain ⟨f2, hf2, hr2, ha2⟩ := h7 e he2
        have hlt : e.2 < s.nextId :=
          wf_objs_lt ⟨h1, h2, h3, h4, h5, h6, h7, h8, h9⟩ hf2
        refine ⟨f2, ?_, hr2, ha2⟩
        rw [alGet_alSet, if_neg (fun hh => absurd hh (Nat.ne_of_gt hlt))]
        exact hf2
      · subst he2
        refine ⟨⟨rel, rel, blake2b content⟩, ?_, rfl, rfl⟩
        rw [alGet_alSet, if_pos rfl]
    · intro e he fid2 hfid2
      rcases mem_alSet he with he2 | he2
      · obtain ⟨f3, hf3, hh3⟩ := h8 e he2 fid2 hfid2
        have hlt : fid2 < s.nextId :=
          wf_objs_lt ⟨h1, h2, h3, h4, h5, h6, h7, h8, h9⟩ hf3
        refine ⟨f3, ?_, hh3⟩
        rw [alGet_alSet, if_neg (fun hh => absurd hh (Nat.ne_of_gt hlt))]
        exact hf3
      · subst he2
        rcases List.mem_append.mp hfid2 with hf | hf
        · obtain ⟨f3, hf3, hh3⟩ := h8 (blake2b content, b2) (alGet_mem hkey) fid2 hf
          have hlt : fid2 < s.nextId :=
            wf_objs_lt ⟨h1, h2, h3, h4, h5, h6, h7, h8, h9⟩ hf3
          refine ⟨f3, ?_, hh3⟩
          rw [alGet_alSet, if_neg (fun hh => absurd hh (Nat.ne_of_gt hlt))]
          exact hf3
        · simp only [List.mem_singleton] at hf
          subst hf
          refine ⟨⟨rel, rel, blake2b content⟩, ?_, rfl⟩
          rw [alGet_alSet, if_pos rfl]
    · show ((alSet s.hash_file_map (blake2b content) (b2 ++ [s.nextId])).flatMap
        (fun e => e.2)).Perm
        ((alSet s.filepath_file_map rel s.nextId).map (fun e => e.2))
      rw [alSet_eq_append hdest, List.map_append]
      have hset := flatMap_vals_perm_set hkey (b2 ++ [s.nextId])
      have hdel := flatMap_vals_perm_del hkey
      refine hset.trans ?_
      have hstep : ((b2 ++ [s.nextId]) ++ (alDel s.hash_file_map
          (blake2b content)).flatMap (fun e => e.2)).Perm
          ((b2 ++ (alDel s.hash_file_map (blake2b content)).flatMap
            (fun e => e.2)) ++ [s.nextId]) := by
        rw [List.append_assoc, List.append_assoc]
        exact (List.perm_append_comm).append_left b2
      refine hstep.trans ?_
      exact (hdel.symm.trans h9).append_right _

theorem mem_alSet_strong {κ α : Type} [DecidableEq κ] {m : List (κ × α)}
    {k : κ} {v : α} {e : κ × α} (hnd : (alKeys m).Nodup) (h : e ∈ alSet m k v) :
    (e ∈ m ∧ e.1 ≠ k) ∨ e = (k, v) := by
  induction m with
  | nil => simpa [alSet] using h
  | cons e2 es ih =>
    rw [alKeys_cons] at hnd
    by_cases he : e2.1 = k
    · rw [alSet, if_pos he] at h
      rcases List.mem_cons.mp h with h | h
      · exact Or.inr h
      · have hk : e.1 ∈ alKeys es := List.mem_map.mpr ⟨e, h, rfl⟩
        have : e.1 ≠ k := fun hc => (List.nodup_cons.mp hnd).1 (he ▸ hc ▸ hk)
        exact Or.inl ⟨List.mem_cons_of_mem _ h, this⟩
    · rw [alSet, if_neg he] at h
      rcases List.mem_cons.mp h with h | h
      · subst h
        exact Or.inl ⟨List.mem_cons_self _ _, he⟩
      · rcases ih (List.nodup_cons.mp hnd).2 h with ⟨hm, hne⟩ | h
        · exact Or.inl ⟨List.mem_cons_of_mem _ hm, hne⟩
        · exact Or.inr h

theorem flatMap_alSet_of_empty {m : List (Str × List Nat)} {k : Str}
    (h : (alGet m k).getD [] = []) (b : List Nat) :
    ((alSet m k b).flatMap (fun e => e.2)).Perm (b ++ m.flatMap (fun e => e.2)) := by
  cases hg : alGet m k with
  | none =>
    rw [alSet_eq_append hg, flatMap_vals_append]
    simp only [List.flatMap_cons, List.flatMap_nil, List.append_nil]
    exact List.perm_append_comm
  | some b0 =>
    have hb0 : b0 = [] := by rw [hg] at h; exact h
    subst hb0
    refine (flatMap_vals_perm_set hg b).trans ?_
    refine List.Perm.append_left b ?_
    have := flatMap_vals_perm_del hg
    rw [List.nil_append] at this
    exact this.symm

theorem wf_modify_file {s : LocalDirectoryRepository} {rel : Str} {fid : Nat}
    {c : Bytes} (hw : wf s) (hg : alGet s.filepath_file_map rel = some fid)
    (hcase : (blake2b c = (getObj s fid).last_hash ∧
        bucketOf s (blake2b c) = [fid]) ∨
      (blake2b c ≠ (getObj s fid).last_hash ∧ bucketOf s (blake2b c) = [])) :
    ∃ s2, modify_file s rel c = some s2 ∧ wf s2 := by
  obtain ⟨f, hgf, hr, ha⟩ := hw.2.2.2.2.2.2.1 (rel, fid) (alGet_mem hg)
  have hgo : getObj s fid = f := getObj_eq hgf
  have hcnt : (bucketOf s f.last_hash).count fid = 1 := by
    have h2 := (wf_i1 s hw).1 (rel, fid) (alGet_mem hg)
    rwa [hgo] at h2
  have hmemb : fid ∈ bucketOf s f.last_hash := by
    rw [← List.count_pos_iff, hcnt]
    exact Nat.one_pos
  have hbne : bucketOf s f.last_hash ≠ [] := fun hnil => by
    rw [hnil] at hmemb
    simp at hmemb
  have hbg := bucketOf_get hbne
  have hbnodup : (bucketOf s f.last_hash).Nodup := by
    have hperm := hw.2.2.2.2.2.2.2.2
    have hbig : (bucketIds s).Nodup :=
      (hperm.nodup_iff).mpr (wf_pathIds_nodup s hw)
    have hsplit := flatMap_vals_perm_del hbg
    have := (hsplit.nodup_iff).mp hbig
    exact (List.nodup_append.mp this).1
  rw [hgo] at hcase
  obtain ⟨h1, h2, h3, h4, h5, h6, h7, h8, h9⟩ := hw
  have hnew : blake2b ((fsGet (fsWrite s.fs rel c) f.abs_path).getD []) =
      blake2b c := by
    rw [ha, fsGet_fsWrite, if_pos rfl, Option.getD_some]
  let fobj : LocalFile := { f with last_hash := blake2b c }
  let hm1 := alSet s.hash_file_map f.last_hash ((bucketOf s f.last_hash).erase fid)
  let s2 : LocalDirectoryRepository :=
    { s with fs := fsWrite s.fs rel c,
             objs := alSet s.objs fid fobj,
             hash_file_map := alSet hm1 (blake2b c) [fid],
             last_action := .MODIFY }
  have hempty : (alGet hm1 (blake2b c)).getD [] = [] := by
    rcases hcase with ⟨hbc, hbkt⟩ | ⟨hbc, hbkt⟩
    · show (alGet (alSet s.hash_file_map f.last_hash
        ((bucketOf s f.last_hash).erase fid)) (blake2b c)).getD [] = []
      rw [alGet_alSet, if_pos hbc.symm, Option.getD_some, ← hbc, hbkt]
      simp
    · show (alGet (alSet s.hash_file_map f.last_hash
        ((bucketOf s f.last_hash).erase fid)) (blake2b c)).getD [] = []
      rw [alGet_alSet, if_neg (fun hc => hbc hc.symm)]
      exact hbkt
  refine ⟨s2, ?_, ?_⟩
  · rw [modify_file, hg]
    simp only [hgo, hbg, if_pos hmemb, hnew]
  · have hm1nd : (alKeys hm1).Nodup := nodup_alKeys_alSet h4 _
    refine ⟨?_, h2, h3, ?_, ?_, ?_, ?_, ?_, ?_⟩
    · exact nodup_alKeys_alSet h1 c
    · exact nodup_alKeys_alSet hm1nd [fid]
    · exact nodup_alKeys_alSet h5 fobj
    · intro fid2 hm
      rw [alKeys_alSet_some (by rw [hgf]; exact fun hc => Option.noConfusion hc)
        fobj] at hm
      exact h6 fid2 hm
    · intro e he
      obtain ⟨f2, hf2, hr2, ha2⟩ := h7 e he
      by_cases hc : fid = e.2
      · subst hc
        have hgf2 : alGet s.objs e.2 = some f := hgf
        rw [hgf2] at hf2
        injection hf2 with hff
        refine ⟨fobj, ?_, ?_, ?_⟩
        · rw [alGet_alSet, if_pos rfl]
        · show f.rel_path = e.1
          rw [hff]
          exact hr2
        · show f.abs_path = e.1
          rw [hff]
          exact ha2
      · refine ⟨f2, ?_, hr2, ha2⟩
        rw [alGet_alSet, if_neg hc]
        exact hf2
    · intro e he fid2 hfid2
      rcases mem_alSet_strong hm1nd he with ⟨hein, hne1⟩ | he2
      · rcases mem_alSet_strong h4 hein with ⟨heold, hne2⟩ | he3
        · obtain ⟨f3, hf3, hh3⟩ := h8 e heold fid2 hfid2
          have hfne : fid ≠ fid2 := by
            intro hc
            subst hc
            rw [hgf] at hf3
            injection hf3 with hf3
            exact hne2 (by rw [← hh3, ← hf3])
          refine ⟨f3, ?_, hh3⟩
          rw [alGet_alSet, if_neg hfne]
          exact hf3
        · subst he3
          have hsub : fid2 ∈ bucketOf s f.last_hash :=
            List.Sublist.mem hfid2 (List.erase_sublist _ _)
          obtain ⟨f3, hf3, hh3⟩ := h8 (f.last_hash, bucketOf s f.last_hash)
            (alGet_mem hbg) fid2 hsub
          have hfne : fid ≠ fid2 := by
            intro hc
            subst hc
            exact (hbnodup.not_mem_erase) hfid2
          refine ⟨f3, ?_, hh3⟩
          rw [alGet_alSet, if_neg hfne]
          exact hf3
      · subst he2
        simp only [List.mem_singleton] at hfid2
        subst hfid2
        refine ⟨fobj, ?_, rfl⟩
        rw [alGet_alSet, if_pos rfl]
    · show ((alSet hm1 (blake2b c) [fid]).flatMap (fun e => e.2)).Perm (pathIds s)
      refine (flatMap_alSet_of_empty hempty [fid]).trans ?_
      have hset := flatMap_vals_perm_set hbg ((bucketOf s f.last_hash).erase fid)
      have hdel := flatMap_vals_perm_del hbg
      have hbk : (bucketOf s f.last_hash).Perm
          (fid :: (bucketOf s f.last_hash).erase fid) :=
        List.perm_cons_erase hmemb
      refine (hset.cons fid).trans ?_
      have hassoc : (fid :: ((bucketOf s f.last_hash).erase fid ++
          (alDel s.hash_file_map f.last_hash).flatMap (fun e => e.2))) =
          ((fid :: (bucketOf s f.last_hash).erase fid) ++
          (alDel s.hash_file_map f.last_hash).flatMap (fun e => e.2)) := rfl
      rw [hassoc]
      exact ((hbk.symm.append_right _).trans hdel.symm).trans h9

theorem flatMap_alSet_append {m : List (Str × List Nat)} {h : Str}
    {b2 : List Nat} (hg : alGet m h = some b2) (x : Nat) :
    ((alSet m h (b2 ++ [x])).flatMap (fun e => e.2)).Perm
      (x :: m.flatMap (fun e => e.2)) := by
  refine (flatMap_vals_perm_set hg (b2 ++ [x])).trans ?_
  have hdel := flatMap_vals_perm_del hg
  have hstep : ((b2 ++ [x]) ++ (alDel m h).flatMap (fun e => e.2)).Perm
      (x :: (b2 ++ (alDel m h).flatMap (fun e => e.2))) := by
    rw [List.append_assoc]
    show (b2 ++ ([x] ++ (alDel m h).flatMap (fun e => e.2))).Perm
      ([x] ++ (b2 ++ (alDel m h).flatMap (fun e => e.2)))
    rw [← List.append_assoc, ← List.append_assoc]
    exact (List.perm_append_comm).append_right _
  exact hstep.trans (hdel.symm.cons x)

theorem flatMap_alSet_new {m : List (Str × List Nat)} {h : Str}
    (hg : alGet m h = none) (x : Nat) :
    ((alSet m h [x]).flatMap (fun e => e.2)).Perm
      (x :: m.flatMap (fun e => e.2)) := by
  rw [alSet_eq_append hg, flatMap_vals_append]
  simp only [List.flatMap_cons, List.flatMap_nil, List.append_nil]
  show (m.flatMap (fun e => e.2) ++ [x]).Perm
    ([x] ++ m.flatMap (fun e => e.2))
  exact List.perm_append_comm

/-- Registering a brand-new file object at a fresh path and a fresh heap
identity, appending it to the bucket of its digest (creating the bucket when
absent), preserves well-formedness. This is the state change shared by the
new-path branches of `update_status`. -/
theorem wf_register_new {s : LocalDirectoryRepository} {relp : Str}
    (hw : wf s) (hrel : alGet s.filepath_file_map relp = none)
    {f : LocalFile} (hfr : f.rel_path = relp) (hfa : f.abs_path = relp)
    {b2 : List Nat} (hb2 : (alGet s.hash_file_map f.last_hash).getD [] = b2) :
    wf { s with objs := alSet s.objs s.nextId f,
                nextId := s.nextId + 1,
                filepath_file_map := alSet s.filepath_file_map relp s.nextId,
                hash_file_map :=
                  alSet s.hash_file_map f.last_hash (b2 ++ [s.nextId]) } := by
  have hobjn : alGet s.objs s.nextId = none := alGet_objs_nextId hw
  obtain ⟨h1, h2, h3, h4, h5, h6, h7, h8, h9⟩ := hw
  refine ⟨h1, h2, ?_, ?_, ?_, ?_, ?_, ?_, ?_⟩
  · exact nodup_alKeys_alSet h3 s.nextId
  · exact nodup_alKeys_alSet h4 _
  · exact nodup_alKeys_alSet h5 _
  · intro fid2 hm
    rw [alKeys_alSet_none hobjn] at hm
    rcases List.mem_append.mp hm with hm | hm
    · exact Nat.lt_succ_of_lt (h6 _ hm)
    · simp only [List.mem_singleton] at hm
      subst hm
      exact Nat.lt_succ_self _
  · intro e he
    rcases mem_alSet he with he2 | he2
    · obtain ⟨f2, hf2, hr2, ha2⟩ := h7 e he2
      have hlt : e.2 < s.nextId :=
        wf_objs_lt ⟨h1, h2, h3, h4, h5, h6, h7, h8, h9⟩ hf2
      refine ⟨f2, ?_, hr2, ha2⟩
      rw [alGet_alSet, if_neg (fun hh => absurd hh (Nat.ne_of_gt hlt))]
      exact hf2
    · subst he2
      refine ⟨f, ?_, hfr, hfa⟩
      rw [alGet_alSet, if_pos rfl]
  · intro e he fid2 hfid2
    rcases mem_alSet he with he2 | he2
    · obtain ⟨f3, hf3, hh3⟩ := h8 e he2 fid2 hfid2
      have hlt : fid2 < s.nextId :=
        wf_objs_lt ⟨h1, h2, h3, h4, h5, h6, h7, h8, h9⟩ hf3
      refine ⟨f3, ?_, hh3⟩
      rw [alGet_alSet, if_neg (fun hh => absurd hh (Nat.ne_of_gt hlt))]
      exact hf3
    · subst he2
      rcases List.mem_append.mp hfid2 with hf | hf
      · cases halg : alGet s.hash_file_map f.last_hash with
        | none =>
          rw [halg] at hb2
          simp only [Option.getD_none] at hb2
          subst hb2
          simp at hf
        | some b0 =>
          rw [halg] at hb2
          simp only [Option.getD_some] at hb2
          subst hb2
          obtain ⟨f3, hf3, hh3⟩ := h8 (f.last_hash, b0) (alGet_mem halg) fid2 hf
          have hlt : fid2 < s.nextId :=
            wf_objs_lt ⟨h1, h2, h3, h4, h5, h6, h7, h8, h9⟩ hf3
          refine ⟨f3, ?_, hh3⟩
          rw [alGet_alSet, if_neg (fun hh => absurd hh (Nat.ne_of_gt hlt))]
          exact hf3
      · simp only [List.mem_singleton] at hf
        subst hf
        refine ⟨f, ?_, rfl⟩
        rw [alGet_alSet, if_pos rfl]
  · show ((alSet s.hash_file_map f.last_hash (b2 ++ [s.nextId])).flatMap
      (fun e => e.2)).Perm
      ((alSet s.filepath_file_map relp s.nextId).map (fun e => e.2))
    rw [alSet_eq_append hrel, List.map_append]
    have hmr : (List.map (fun e => e.2) [(relp, s.nextId)] : List Nat) =
        [s.nextId] := rfl
    rw [hmr]
    have htail : ((alSet s.hash_file_map f.last_hash (b2 ++ [s.nextId])).flatMap
        (fun e => e.2)).Perm (s.nextId :: bucketIds s) := by
      cases halg : alGet s.hash_file_map f.last_hash with
      | none =>
        rw [halg] at hb2
        simp only [Option.getD_none] at hb2
        subst hb2
        rw [List.nil_append]
        exact flatMap_alSet_new halg s.nextId
      | some b0 =>
        rw [halg] at hb2
        simp only [Option.getD_some] at hb2
        subst hb2
        exact flatMap_alSet_append halg s.nextId
    refine htail.trans ?_
    refine ((h9.cons s.nextId).trans ?_)
    show ([s.nextId] ++ pathIds s).Perm (pathIds s ++ [s.nextId])
    exact List.perm_append_comm

theorem wf_scanNewFile {s : LocalDirectoryRepository} {moved changes : List Str}
    {relp : Str} (hw : wf s) (hrel : alGet s.filepath_file_map relp = none) :
    wf (scanNewFile s moved changes relp).1 := by
  simp only [scanNewFile]
  cases halg : alGet s.hash_file_map (mkLocalFile s.fs relp relp).last_hash with
  | some bucket =>
    dsimp only
    cases hfind : bucket.find?
        (fun oid => fsIsFile s.fs (getObj s oid).abs_path) with
    | some oid =>
      exact wf_register_new hw hrel rfl rfl
        (show (alGet s.hash_file_map
          (mkLocalFile s.fs relp relp).last_hash).getD [] = bucket by
            rw [halg]; rfl)
    | none =>
      exact wf_register_new hw hrel rfl rfl
        (show (alGet s.hash_file_map
          (mkLocalFile s.fs relp relp).last_hash).getD [] = bucket by
            rw [halg]; rfl)
  | none =>
    dsimp only
    exact wf_register_new hw hrel rfl rfl
      (show (alGet s.hash_file_map
        (mkLocalFile s.fs relp relp).last_hash).getD [] = [] by
          rw [halg]; rfl)

/-- Re-bucketing a tracked file whose digest changed — removing it from its
old bucket and appending it to the bucket of the new digest (creating that
bucket when absent) while updating the object's `last_hash` — preserves
well-formedness. This is the state change of the known-path modify branch of
`update_status`. -/
theorem wf_rehash {s : LocalDirectoryRepository} {relp : Str} {fid : Nat}
    (hw : wf s) (hg : alGet s.filepath_file_map relp = some fid)
    {H : Str} (hne : (getObj s fid).last_hash ≠ H)
    {b2 : List Nat}
    (hb2 : (alGet (alSet s.hash_file_map (getObj s fid).last_hash
      ((bucketOf s (getObj s fid).last_hash).erase fid)) H).getD [] = b2) :
    wf { s with
      objs := alSet s.objs fid { getObj s fid with last_hash := H },
      hash_file_map := alSet (alSet s.hash_file_map (getObj s fid).last_hash
        ((bucketOf s (getObj s fid).last_hash).erase fid)) H (b2 ++ [fid]) } := by
  obtain ⟨f, hgf, hr, ha⟩ := hw.2.2.2.2.2.2.1 (relp, fid) (alGet_mem hg)
  have hgo : getObj s fid = f := getObj_eq hgf
  have hcnt : (bucketOf s (getObj s fid).last_hash).count fid = 1 :=
    (wf_i1 s hw).1 (relp, fid) (alGet_mem hg)
  have hmemb : fid ∈ bucketOf s (getObj s fid).last_hash := by
    rw [← List.count_pos_iff, hcnt]
    exact Nat.one_pos
  have hbne : bucketOf s (getObj s fid).last_hash ≠ [] := fun hnil => by
    rw [hnil] at hmemb
    simp at hmemb
  have hbg := bucketOf_get hbne
  have hbnodup : (bucketOf s (getObj s fid).last_hash).Nodup := by
    have hperm := hw.2.2.2.2.2.2.2.2
    have hbig : (bucketIds s).Nodup :=
      (hperm.nodup_iff).mpr (wf_pathIds_nodup s hw)
    have hsplit := flatMap_vals_perm_del hbg
    have := (hsplit.nodup_iff).mp hbig
    exact (List.nodup_append.mp this).1
  have hnewget : alGet (alSet s.hash_file_map (getObj s fid).last_hash
      ((bucketOf s (getObj s fid).last_hash).erase fid)) H =
      alGet s.hash_file_map H := by
    rw [alGet_alSet, if_neg hne]
  obtain ⟨h1, h2, h3, h4, h5, h6, h7, h8, h9⟩ := hw
  have hm1nd : (alKeys (alSet s.hash_file_map (getObj s fid).last_hash
      ((bucketOf s (getObj s fid).last_hash).erase fid))).Nodup :=
    nodup_alKeys_alSet h4 _
  refine ⟨h1, h2, h3, ?_, ?_, ?_, ?_, ?_, ?_⟩
  · exact nodup_alKeys_alSet hm1nd _
  · exact nodup_alKeys_alSet h5 _
  · intro fid2 hm
    rw [alKeys_alSet_some (by rw [hgf]; exact fun hc => Option.noConfusion hc)
      _] at hm
    exact h6 fid2 hm
  · intro e he
    obtain ⟨f2, hf2, hr2, ha2⟩ := h7 e he
    by_cases hc : fid = e.2
    · subst hc
      have hgf2 : alGet s.objs e.2 = some f := hgf
      rw [hgf2] at hf2
      injection hf2 with hff
      refine ⟨{ getObj s e.2 with last_hash := H }, ?_, ?_, ?_⟩
      · rw [alGet_alSet, if_pos rfl]
      · show (getObj s e.2).rel_path = e.1
        rw [hgo, hff]
        exact hr2
      · show (getObj s e.2).abs_path = e.1
        rw [hgo, hff]
        exact ha2
    · refine ⟨f2, ?_, hr2, ha2⟩
      rw [alGet_alSet, if_neg hc]
      exact hf2
  · intro e he fid2 hfid2
    rcases mem_alSet_strong (nodup_alKeys_alSet h4 _) he with ⟨hein, hne1⟩ | he2
    · rcases mem_alSet_strong h4 hein with ⟨heold, hne2⟩ | he3
      · obtain ⟨f3, hf3, hh3⟩ := h8 e heold fid2 hfid2
        have hfne : fid ≠ fid2 := by
          intro hc
          subst hc
          rw [hgf] at hf3
          injection hf3 with hf3
          refine hne2 ?_
          rw [← hh3, ← hf3, hgo]
        refine ⟨f3, ?_, hh3⟩
        rw [alGet_alSet, if_neg hfne]
        exact hf3
      · subst he3
        have hsub : fid2 ∈ bucketOf s (getObj s fid).last_hash :=
          List.Sublist.mem hfid2 (List.erase_sublist _ _)
        obtain ⟨f3, hf3, hh3⟩ := h8 ((getObj s fid).last_hash,
          bucketOf s (getObj s fid).last_hash) (alGet_mem hbg) fid2 hsub
        have hfne : fid ≠ fid2 := by
          intro hc
          subst hc
          exact (hbnodup.not_mem_erase) hfid2
        refine ⟨f3, ?_, hh3⟩
        rw [alGet_alSet, if_neg hfne]
        exact hf3
    · subst he2
      rcases List.mem_append.mp hfid2 with hf2 | hf2
      · cases halg : alGet s.hash_file_map H with
        | none =>
          rw [hnewget, halg] at hb2
          simp only [Option.getD_none] at hb2
          subst hb2
          simp at hf2
        | some b0 =>
          rw [hnewget, halg] at hb2
          simp only [Option.getD_some] at hb2
          subst hb2
          obtain ⟨f3, hf3, hh3⟩ := h8 (H, b0) (alGet_mem halg) fid2 hf2
          have hfne : fid ≠ fid2 := by
            intro hc
            subst hc
            rw [hgf] at hf3
            injection hf3 with hf3
            refine hne ?_
            rw [hgo, hf3, hh3]
          refine ⟨f3, ?_, hh3⟩
          rw [alGet_alSet, if_neg hfne]
          exact hf3
      · simp only [List.mem_singleton] at hf2
        refine ⟨{ getObj s fid with last_hash := H }, ?_, rfl⟩
        rw [hf2, alGet_alSet, if_pos rfl]
  · show ((alSet (alSet s.hash_file_map (getObj s fid).last_hash
      ((bucketOf s (getObj s fid).last_hash).erase fid)) H
        (b2 ++ [fid])).flatMap (fun e => e.2)).Perm (pathIds s)
    have hstep1 : ((alSet (alSet s.hash_file_map (getObj s fid).last_hash
        ((bucketOf s (getObj s fid).last_hash).erase fid)) H
          (b2 ++ [fid])).flatMap (fun e => e.2)).Perm
        (fid :: (alSet s.hash_file_map (getObj s fid).last_hash
          ((bucketOf s (getObj s fid).last_hash).erase fid)).flatMap
            (fun e => e.2)) := by
      cases halg : alGet (alSet s.hash_file_map (getObj s fid).last_hash
          ((bucketOf s (getObj s fid).last_hash).erase fid)) H with
      | none =>
        rw [halg] at hb2
        simp only [Option.getD_none] at hb2
        subst hb2
        rw [List.nil_append]
        exact flatMap_alSet_new halg fid
      | some b0 =>
        rw [halg] at hb2
        simp only [Option.getD_some] at hb2
        subst hb2
        exact flatMap_alSet_append halg fid
    refine hstep1.trans ?_
    have hset := flatMap_vals_perm_set hbg
      ((bucketOf s (getObj s fid).last_hash).erase fid)
    have hdel := flatMap_vals_perm_del hbg
    have hbk : (bucketOf s (getObj s fid).last_hash).Perm
        (fid :: (bucketOf s (getObj s fid).last_hash).erase fid) :=
      List.perm_cons_erase hmemb
    refine (hset.cons fid).trans ?_
    have hassoc : (fid :: ((bucketOf s (getObj s fid).last_hash).erase fid ++
        (alDel s.hash_file_map (getObj s fid).last_hash).flatMap
          (fun e => e.2))) =
        ((fid :: (bucketOf s (getObj s fid).last_hash).erase fid) ++
        (alDel s.hash_file_map (getObj s fid).last_hash).flatMap
          (fun e => e.2)) := rfl
    rw [hassoc]
    exact ((hbk.symm.append_right _).trans hdel.symm).trans h9

theorem wf_scanKnownFile {s : LocalDirectoryRepository} {changes : List Str}
    {relp : Str} (hw : wf s) : wf (scanKnownFile s changes relp).1 := by
  simp only [scanKnownFile]
  cases hg : alGet s.filepath_file_map relp with
  | none => exact hw
  | some fid =>
    dsimp only
    obtain ⟨f, hgf, hr, ha⟩ := hw.2.2.2.2.2.2.1 (relp, fid) (alGet_mem hg)
    by_cases hEq : (getObj s fid).last_hash =
        blake2b ((fsGet s.fs (getObj s fid).abs_path).getD [])
    · rw [if_pos hEq]
      have hself : alSet s.objs fid { getObj s fid with last_hash := blake2b ((fsGet s.fs (getObj s fid).abs_path).getD []) } = s.objs := by
        rw [← hEq]
        refine alSet_self ?_
        rw [getObj_eq hgf]
        exact hgf
      dsimp only
      rw [hself]
      exact hw
    · rw [if_neg hEq]
      have hcnt : (bucketOf s (getObj s fid).last_hash).count fid = 1 :=
        (wf_i1 s hw).1 (relp, fid) (alGet_mem hg)
      have hmemb : fid ∈ bucketOf s (getObj s fid).last_hash := by
        rw [← List.count_pos_iff, hcnt]
        exact Nat.one_pos
      have hbne : bucketOf s (getObj s fid).last_hash ≠ [] := fun hnil => by
        rw [hnil] at hmemb
        simp at hmemb
      have hbg := bucketOf_get hbne
      cases halg : alGet s.hash_file_map (getObj s fid).last_hash with
      | none =>
        rw [halg] at hbg
        exact Option.noConfusion hbg
      | some bucket =>
        dsimp only
        have hbucket : bucket = bucketOf s (getObj s fid).last_hash :=
          Option.some.inj (halg.symm.trans hbg)
        rw [hbucket]
        cases hnb : alGet (alSet s.hash_file_map (getObj s fid).last_hash
            ((bucketOf s (getObj s fid).last_hash).erase fid))
            (blake2b ((fsGet s.fs (getObj s fid).abs_path).getD [])) with
        | none =>
          dsimp only
          exact wf_rehash hw hg hEq (by rw [hnb])
        | some b0 =>
          dsimp only
          exact wf_rehash hw hg hEq (by rw [hnb]; rfl)

/-- Dropping a tracked file from both indices (as the vanished-file pass of
`update_status` does) preserves well-formedness. -/
theorem wf_unregister {s : LocalDirectoryRepository} {relp : Str} {fid : Nat}
    (hw : wf s) (hg : alGet s.filepath_file_map relp = some fid) :
    wf { s with
      filepath_file_map := alDel s.filepath_file_map relp,
      hash_file_map := alSet s.hash_file_map (getObj s fid).last_hash
        ((bucketOf s (getObj s fid).last_hash).erase fid) } := by
  have hcnt : (bucketOf s (getObj s fid).last_hash).count fid = 1 :=
    (wf_i1 s hw).1 (relp, fid) (alGet_mem hg)
  have hmemb : fid ∈ bucketOf s (getObj s fid).last_hash := by
    rw [← List.count_pos_iff, hcnt]
    exact Nat.one_pos
  have hbne : bucketOf s (getObj s fid).last_hash ≠ [] := fun hnil => by
    rw [hnil] at hmemb
    simp at hmemb
  have hbg := bucketOf_get hbne
  obtain ⟨h1, h2, h3, h4, h5, h6, h7, h8, h9⟩ := hw
  refine ⟨h1, h2, ?_, ?_, h5, h6, ?_, ?_, ?_⟩
  · exact nodup_alKeys_alDel h3
  · exact nodup_alKeys_alSet h4 _
  · intro e he
    exact h7 e (List.Sublist.mem he (alDel_sublist _ _))
  · intro e he fid2 hfid2
    rcases mem_alSet he with he2 | he2
    · exact h8 e he2 fid2 hfid2
    · subst he2
      exact h8 ((getObj s fid).last_hash, bucketOf s (getObj s fid).last_hash)
        (alGet_mem hbg) fid2
        (List.Sublist.mem hfid2 (List.erase_sublist _ _))
  · have hpm : (pathIds s).Perm (fid :: (alDel s.filepath_file_map relp).map
        (fun e => e.2)) := by
      have := (perm_alDel_of_get hg).map (fun e => e.2)
      simpa [pathIds] using this
    have hset := flatMap_vals_perm_set hbg
      ((bucketOf s (getObj s fid).last_hash).erase fid)
    have hdel := flatMap_vals_perm_del hbg
    have hbk : (bucketOf s (getObj s fid).last_hash).Perm
        (fid :: (bucketOf s (getObj s fid).last_hash).erase fid) :=
      List.perm_cons_erase hmemb
    have hx : (fid :: ((bucketOf s (getObj s fid).last_hash).erase fid ++
        (alDel s.hash_file_map (getObj s fid).last_hash).flatMap
          (fun e => e.2))).Perm (bucketIds s) := by
      have hy : (fid :: ((bucketOf s (getObj s fid).last_hash).erase fid ++
          (alDel s.hash_file_map (getObj s fid).last_hash).flatMap
            (fun e => e.2))) =
          ((fid :: (bucketOf s (getObj s fid).last_hash).erase fid) ++
          (alDel s.hash_file_map (getObj s fid).last_hash).flatMap
            (fun e => e.2)) := rfl
      rw [hy]
      exact ((hbk.symm.append_right _).trans hdel.symm)
    have hstep : (fid :: (alSet s.hash_file_map (getObj s fid).last_hash
        ((bucketOf s (getObj s fid).last_hash).erase fid)).flatMap
          (fun e => e.2)).Perm
        (fid :: (alDel s.filepath_file_map relp).map (fun e => e.2)) :=
      (hset.cons fid).trans (hx.trans (h9.trans hpm))
    exact hstep.cons_inv

theorem wf_scanFiles {s : LocalDirectoryRepository} {moved changes : List Str}
    {paths : List Str} (hw : wf s) :
    wf (scanFiles s moved changes paths).1 := by
  induction paths generalizing s moved changes with
  | nil => exact hw
  | cons p rest ih =>
    rw [scanFiles]
    by_cases hp : (alGet s.filepath_file_map p).isSome
    · rw [if_pos hp]
      exact ih (wf_scanKnownFile hw)
    · rw [if_neg hp]
      exact ih (wf_scanNewFile hw (Option.not_isSome_iff_eq_none.mp hp))

theorem wf_scanDeletePass {s : LocalDirectoryRepository}
    {moved changes : List Str} {entries : List (Str × Nat)} (hw : wf s)
    (hpres : ∀ e ∈ entries, alGet s.filepath_file_map e.1 = some e.2)
    (hnd : (alKeys entries).Nodup) :
    wf (scanDeletePass s moved changes entries).1 := by
  induction entries generalizing s moved changes with
  | nil => exact hw
  | cons e rest ih =>
    obtain ⟨relp, fid⟩ := e
    rw [alKeys_cons] at hnd
    rw [scanDeletePass]
    by_cases hisf : fsIsFile s.fs (getObj s fid).abs_path
    · rw [if_pos hisf]
      exact ih hw (fun e2 he2 => hpres e2 (List.mem_cons_of_mem _ he2))
        (List.nodup_cons.mp hnd).2
    · rw [if_neg hisf]
      have hg : alGet s.filepath_file_map relp = some fid :=
        hpres (relp, fid) (List.mem_cons_self _ _)
      refine ih (wf_unregister hw hg) ?_ (List.nodup_cons.mp hnd).2
      intro e2 he2
      show alGet (alDel s.filepath_file_map relp) e2.1 = some e2.2
      have hne : relp ≠ e2.1 := by
        intro hc
        exact (List.nodup_cons.mp hnd).1
          (hc ▸ List.mem_map.mpr ⟨e2, he2, rfl⟩)
      rw [alGet_alDel_ne _ hne]
      exact hpres e2 (List.mem_cons_of_mem _ he2)

theorem wf_update_status {s : LocalDirectoryRepository} (hw : wf s) :
    wf (update_status s).1 := by
  rw [update_status]
  dsimp only
  have h1 := @wf_scanFiles s [] [] (s.fs.files.map (fun f => f.1)) hw
  exact wf_scanDeletePass h1
    (fun e he => alGet_of_mem he h1.2.2.1) h1.2.2.1

theorem wf_applyOp {s : LocalDirectoryRepository} {op : RepoOp}
    {s2 : LocalDirectoryRepository} (hw : wf s) (hal : opAllowed s op = true)
    (happ : applyOp s op = some s2) : wf s2 := by
  cases op with
  | createOp rel c =>
    simp only [opAllowed, Bool.and_eq_true] at hal
    obtain ⟨hrel, hbkt⟩ := hal
    rw [Option.isNone_iff_eq_none] at hrel
    simp only [applyOp, Option.some.injEq] at happ
    subst happ
    exact wf_create_file hw hrel (of_decide_eq_true hbkt)
  | modifyOp rel c =>
    simp only [opAllowed] at hal
    cases hg : alGet s.filepath_file_map rel with
    | none => simp [hg] at hal
    | some fid =>
      simp only [hg] at hal
      simp only [applyOp] at happ
      by_cases hbc : blake2b c = (getObj s fid).last_hash
      · rw [if_pos hbc] at hal
        obtain ⟨s3, heq, hwf⟩ :=
          wf_modify_file hw hg (Or.inl ⟨hbc, of_decide_eq_true hal⟩)
        rw [heq] at happ
        injection happ with happ
        rw [← happ]
        exact hwf
      · rw [if_neg hbc] at hal
        obtain ⟨s3, heq, hwf⟩ :=
          wf_modify_file hw hg (Or.inr ⟨hbc, of_decide_eq_true hal⟩)
        rw [heq] at happ
        injection happ with happ
        rw [← happ]
        exact hwf
  | moveOp h rel =>
    simp only [opAllowed] at hal
    cases hg : alGet s.hash_file_map h with
    | none => simp [hg] at hal
    | some bucket =>
      cases bucket with
      | nil => simp [hg] at hal
      | cons fid rest =>
        simp only [hg, Bool.and_eq_true] at hal
        obtain ⟨hrel, hisf⟩ := hal
        rw [Option.isNone_iff_eq_none] at hrel
        simp only [fsIsFile] at hisf
        obtain ⟨content, hcontent⟩ := Option.isSome_iff_exists.mp hisf
        obtain ⟨s3, heq, hwf⟩ := wf_move_file hw hg hcontent hrel
        simp only [applyOp] at happ
        rw [heq] at happ
        injection happ with happ
        rw [← happ]
        exact hwf
  | copyOp h rel =>
    simp only [opAllowed] at hal
    cases hg : alGet s.hash_file_map h with
    | none => simp [hg] at hal
    | some bucket =>
      cases bucket with
      | nil => simp [hg] at hal
      | cons fid rest =>
        simp only [hg, Bool.and_eq_true] at hal
        obtain ⟨hrel, hrest⟩ := hal
        rw [Option.isNone_iff_eq_none] at hrel
        cases hfs : fsGet s.fs (getObj s fid).abs_path with
        | none => simp [hfs] at hrest
        | some content =>
          simp only [hfs] at hrest
          obtain ⟨b2, hb2⟩ := Option.isSome_iff_exists.mp hrest
          obtain ⟨s3, heq, hwf⟩ := wf_copy_file hw hg hfs hrel hb2
          simp only [applyOp] at happ
          rw [heq] at happ
          injection happ with happ
          rw [← happ]
          exact hwf
  | deleteOp rel =>
    simp only [opAllowed] at hal
    cases hg : alGet s.filepath_file_map rel with
    | none => simp [hg] at hal
    | some fid =>
      simp only [hg, fsIsFile] at hal
      obtain ⟨content, hcontent⟩ := Option.isSome_iff_exists.mp hal
      obtain ⟨s3, heq, hwf⟩ := wf_delete_file hw hg hcontent
      simp only [applyOp] at happ
      rw [heq] at happ
      injection happ with happ
      rw [← happ]
      exact hwf
  | pruneOp =>
    simp only [applyOp, Option.some.injEq] at happ
    subst happ
    exact wf_prune hw
  | scanOp =>
    simp only [applyOp, Option.some.injEq] at happ
    subst happ
    exact wf_update_status hw
  | driftOp fs =>
    simp only [opAllowed, Bool.and_eq_true] at hal
    obtain ⟨hfl, hdr⟩ := hal
    simp only [applyOp, Option.some.injEq] at happ
    subst happ
    exact wf_driftOp hw (of_decide_eq_true hfl) (of_decide_eq_true hdr)

theorem wf_applySeq {s : LocalDirectoryRepository} {ops : List RepoOp}
    {s2 : LocalDirectoryRepository} (hw : wf s) (hal : seqAllowed s ops = true)
    (happ : applySeq s ops = some s2) : wf s2 := by
  induction ops generalizing s with
  | nil =>
    simp only [applySeq, Option.some.injEq] at happ
    subst happ
    exact hw
  | cons op rest ih =>
    rw [seqAllowed, Bool.and_eq_true] at hal
    obtain ⟨h1, h2⟩ := hal
    rw [applySeq] at happ
    cases ha : applyOp s op with
    | none =>
      rw [ha] at happ
      simp at happ
    | some s1 =>
      rw [ha] at happ
      simp only [ha] at h2
      exact ih (wf_applyOp hw h1 ha) h2 happ

theorem wf_newRepository : wf (newRepository ⟨[], []⟩) := by decide

/-! ### Record serialization and parsing -/

theorem pySplit_ne_nil (sep : Char) (s : Str) : pySplit sep s ≠ [] := by
  cases s with
  | nil => simp [pySplit]
  | cons c rest =>
    rw [pySplit]
    cases hps : pySplit sep rest with
    | nil => simp
    | cons t ts =>
      by_cases hc : c = sep <;> simp [hc]

theorem pySplit_append_sep {sep : Char} {xs : Str} (h : sep ∉ xs) (ys : Str) :
    pySplit sep (xs ++ sep :: ys) = xs :: pySplit sep ys := by
  induction xs with
  | nil =>
    rw [List.nil_append, pySplit]
    cases hps : pySplit sep ys with
    | nil => exact absurd hps (pySplit_ne_nil sep ys)
    | cons t ts => simp
  | cons c xs ih =>
    have hc : c ≠ sep := fun hcs => h (hcs ▸ List.mem_cons_self _ _)
    have hxs : sep ∉ xs := fun hm => h (List.mem_cons_of_mem _ hm)
    rw [List.cons_append, pySplit, ih hxs]
    simp [hc]

theorem pySplit_getD_zero (sep : Char) (s : Str) :
    (pySplit sep s).getD 0 [] = s.takeWhile (fun c => c != sep) := by
  induction s with
  | nil => simp [pySplit]
  | cons c rest ih =>
    rw [pySplit]
    cases hps : pySplit sep rest with
    | nil => exact absurd hps (pySplit_ne_nil sep rest)
    | cons t ts =>
      rw [hps] at ih
      by_cases hc : c = sep
      · subst hc
        simp [List.takeWhile_cons]
      · simp only [if_neg hc, List.takeWhile_cons]
        have hb : (c != sep) = true := by
          simp [bne_iff_ne]
          exact hc
        rw [hb]
        simp only [List.getD_cons_zero] at ih ⊢
        rw [ih]
        simp

theorem takeWhile_bne_eq_self {sep : Char} {p : Str} (h : sep ∉ p) :
    p.takeWhile (fun c => c != sep) = p := by
  induction p with
  | nil => simp
  | cons c rest ih =>
    have hc : c ≠ sep := fun hcs => h (hcs ▸ List.mem_cons_self _ _)
    have hrest : sep ∉ rest := fun hm => h (List.mem_cons_of_mem _ hm)
    rw [List.takeWhile_cons]
    have hb : (c != sep) = true := by
      simp [bne_iff_ne]
      exact hc
    rw [hb]
    simp [ih hrest]

theorem pySplit_mkChange {cmd file_hash : Str} (hc : ' ' ∉ cmd)
    (hh : ' ' ∉ file_hash) (p : Str) :
    pySplit ' ' (mkChange cmd file_hash p) =
      cmd :: file_hash :: ['-', '>'] :: pySplit ' ' p := by
  rw [mkChange, pySplit_append_sep hc]
  have harrow : mkChange [] file_hash p = [] ++ ' ' :: (file_hash ++
      (' ' :: '-' :: '>' :: ' ' :: p)) := rfl
  rw [pySplit_append_sep hh]
  have h2 : ('-' :: '>' :: ' ' :: p) = ['-', '>'] ++ ' ' :: p := rfl
  rw [h2, pySplit_append_sep (by decide)]

theorem parseChange_mkChange {cmd file_hash : Str} (hc : ' ' ∉ cmd)
    (hh : ' ' ∉ file_hash) (p : Str) :
    parseChange (mkChange cmd file_hash p) =
      (cmd, file_hash, p.takeWhile (fun c => c != ' ')) := by
  rw [parseChange, pySplit_mkChange hc hh]
  simp only [List.getD_cons_zero]
  have h3 : (cmd :: file_hash :: ['-', '>'] :: pySplit ' ' p).getD 3 [] =
      (pySplit ' ' p).getD 0 [] := rfl
  rw [h3, pySplit_getD_zero]
  rfl

theorem pySplit_cons_sep (sep : Char) (s : Str) :
    pySplit sep (sep :: s) = [] :: pySplit sep s := by
  rw [pySplit]
  cases hps : pySplit sep s with
  | nil => exact absurd hps (pySplit_ne_nil sep s)
  | cons t ts => simp

theorem pySplit_no_sep {sep : Char} {s : Str} (h : sep ∉ s) :
    pySplit sep s = [s] := by
  induction s with
  | nil => rfl
  | cons c rest ih =>
    have hc : c ≠ sep := fun hcs => h (hcs ▸ List.mem_cons_self _ _)
    have hrest : sep ∉ rest := fun hm => h (List.mem_cons_of_mem _ hm)
    rw [pySplit, ih hrest]
    simp [hc]

theorem not_sep_natTallies (n : Nat) : 'x' ∉ natTallies n := by
  rw [natTallies]
  intro hm
  exact absurd (List.eq_of_mem_replicate hm) (by decide)

theorem pySplit_flatMap (b : List Nat) :
    pySplit 'x' (b.flatMap (fun n => 'x' :: natTallies n)) =
      [] :: b.map (fun n => natTallies n) := by
  induction b with
  | nil => rfl
  | cons n r ih =>
    rw [List.flatMap_cons, List.cons_append, pySplit_cons_sep]
    cases r with
    | nil =>
      rw [List.flatMap_nil, List.append_nil, pySplit_no_sep (not_sep_natTallies n)]
      rfl
    | cons n2 r2 =>
      rw [List.flatMap_cons, List.cons_append, pySplit_append_sep
        (not_sep_natTallies n)]
      rw [List.flatMap_cons, List.cons_append, pySplit_cons_sep] at ih
      injection ih with _ ih
      rw [ih]
      rfl

theorem blake2b_injective {b1 b2 : Bytes} (h : blake2b b1 = blake2b b2) :
    b1 = b2 := by
  rw [blake2b, blake2b] at h
  injection h with _ h
  have h2 := congrArg (pySplit 'x') h
  rw [pySplit_flatMap, pySplit_flatMap] at h2
  injection h2 with _ h2
  have hinj : Function.Injective natTallies := by
    intro a b hab
    have hlen := congrArg List.length hab
    simpa [natTallies] using hlen
  exact List.map_injective_iff.mpr hinj h2

theorem blake2b_no_space (b : Bytes) : ' ' ∉ blake2b b := by
  rw [blake2b]
  intro hmem
  rcases List.mem_cons.mp hmem with h | h
  · exact absurd h (by decide)
  · obtain ⟨n, hn, hcm⟩ := List.mem_flatMap.mp h
    rcases List.mem_cons.mp hcm with h2 | h2
    · exact absurd h2 (by decide)
    · rw [natTallies] at h2
      have := List.eq_of_mem_replicate h2
      exact absurd this (by decide)

/-! ### The claims -/

/-- C1: the claim states that `create_file(p, content)` followed by
`get_file_at_path(p).read()` returns exactly `content`. The code cannot
deliver this round trip: `LocalFile` leaves `File.read` abstract, so the
`LocalFile` construction inside `create_file` raises `TypeError` before the
repository state is touched, and no `read` method exists at all. This theorem
evaluates the Python-semantics embedding of `create_file` at the failing
input `p = "a.txt"`, `content = b"\x01"`. -/
theorem C1_create_read_roundtrip_bug :
    create_file_py (newRepository ⟨[], []⟩) "a.txt".toList [1] =
      Except.error PyError.typeError := rfl

/-- C2: `File` declares `read` abstract and `LocalFile` implements only
`__init__` and `calculate_blake2b_hash`, so every `LocalFile(...)` call
raises `TypeError`: `create_file` always (the construction precedes every
map update), `copy_file` whenever its bucket lookup succeeds and the
construction on line 242 is reached, and `update_status` whenever the walk
discovers a file at a path that is not yet tracked (on a fresh repository,
any file at all). -/
theorem C2_localfile_cannot_instantiate :
    localFileMissingAbstract = ["read"] ∧
    (∀ s rel c, create_file_py s rel c = Except.error PyError.typeError) ∧
    (∀ s h rel fid rest, alGet s.hash_file_map h = some (fid :: rest) →
      copy_file_py s h rel = Except.error PyError.typeError) ∧
    (∀ s relp b rest, s.filepath_file_map = [] →
      s.fs.files = (relp, b) :: rest →
      update_status_py s = Except.error PyError.typeError) := by
  refine ⟨by decide, ?_, ?_, ?_⟩
  · intro s rel c
    rfl
  · intro s h rel fid rest hg
    rw [copy_file_py, hg]
    rfl
  · intro s relp b rest hmap hfiles
    rw [update_status_py, hfiles]
    have hstep : scanFilesPy s [] [] (((relp, b) :: rest).map (fun f => f.1)) =
        Except.error PyError.typeError := by
      rw [List.map_cons, scanFilesPy, hmap]
      rfl
    rw [hstep]

/-- Witness for C2 at concrete inputs: a fresh repository for `create_file`
and `update_status`, and a state holding one bucket for `copy_file`. -/
theorem C2_localfile_cannot_instantiate_witness :
    create_file_py (newRepository ⟨[], []⟩) "a.txt".toList [1] =
      Except.error PyError.typeError ∧
    copy_file_py c2CopyState (blake2b [1]) "b.txt".toList =
      Except.error PyError.typeError ∧
    update_status_py (newRepository ⟨[("a.txt".toList, [1])], []⟩) =
      Except.error PyError.typeError :=
  ⟨C2_localfile_cannot_instantiate.2.1 _ _ _,
   C2_localfile_cannot_instantiate.2.2.1 _ _ _ 0 [] (by decide),
   C2_localfile_cannot_instantiate.2.2.2 _ "a.txt".toList [1] [] rfl rfl⟩

/-- C9: replaying a record whose command token is `move` (or `copy`) invokes
only the destination repository's `move_file` (`copy_file`) with the hash
token taken from the record — which those primitives resolve against the
destination's own `hash_file_map` — returns the source repository unchanged,
and reads no file bytes from the source (the read log is empty). -/
theorem C9_move_copy_replay_local :
    (∀ src dest ch, (parseChange ch).1 = "move".toList →
      replayChange src dest ch =
        (move_file dest (parseChange ch).2.1 (parseChange ch).2.2).map
          (fun d => (src, d, []))) ∧
    (∀ src dest ch, (parseChange ch).1 = "copy".toList →
      replayChange src dest ch =
        (copy_file dest (parseChange ch).2.1 (parseChange ch).2.2).map
          (fun d => (src, d, []))) := by
  constructor
  · intro src dest ch hcmd
    rw [replayChange]
    rw [hcmd]
    rw [if_neg (by decide), if_neg (by decide), if_pos rfl]
  · intro src dest ch hcmd
    rw [replayChange]
    rw [hcmd]
    rw [if_neg (by decide), if_neg (by decide), if_neg (by decide), if_pos rfl]

/-- Witness for C9 at a concrete move record and concrete repositories. -/
theorem C9_move_copy_replay_local_witness :
    (parseChange (mkChange "move".toList (blake2b [1]) "y.txt".toList)).1 =
      "move".toList ∧
    replayChange (newRepository ⟨[], []⟩) (newRepository ⟨[], []⟩)
      (mkChange "move".toList (blake2b [1]) "y.txt".toList) =
      (move_file (newRepository ⟨[], []⟩)
        (parseChange (mkChange "move".toList (blake2b [1])
          "y.txt".toList)).2.1
        (parseChange (mkChange "move".toList (blake2b [1])
          "y.txt".toList)).2.2).map
        (fun d => (newRepository ⟨[], []⟩, d, [])) :=
  ⟨by decide,
   C9_move_copy_replay_local.1 (newRepository ⟨[], []⟩)
     (newRepository ⟨[], []⟩) _ (by decide)⟩

/-- C10: `execute` recovers a record's fields by splitting on single spaces
and taking tokens 0, 1 and 3. For records serialized as
`command ++ " " ++ hash ++ " -> " ++ path` with space-free command and hash,
parsing returns the command, the hash, and the path truncated at its first
space; it inverts the serialization exactly when the path contains no space,
and the replay of such a record applies the operation to the truncated path
(shown for `delete`). -/
theorem C10_space_splitting_parse (cmd file_hash p : Str)
    (hc : ' ' ∉ cmd) (hh : ' ' ∉ file_hash) :
    parseChange (mkChange cmd file_hash p) =
      (cmd, file_hash, p.takeWhile (fun c => c != ' ')) ∧
    (parseChange (mkChange cmd file_hash p) = (cmd, file_hash, p) ↔
      ' ' ∉ p) ∧
    (∀ src dest, replayChange src dest
        (mkChange "delete".toList file_hash p) =
      (delete_file dest (p.takeWhile (fun c => c != ' '))).map
        (fun d => (src, d, []))) := by
  refine ⟨parseChange_mkChange hc hh p, ?_, ?_⟩
  · rw [parseChange_mkChange hc hh p]
    constructor
    · intro heq
      injection heq with h1 h2
      injection h2 with h2 h3
      intro hsp
      rw [← h3] at hsp
      have := List.mem_takeWhile_imp hsp
      simp at this
    · intro hsp
      rw [takeWhile_bne_eq_self hsp]
  · intro src dest
    rw [replayChange, parseChange_mkChange (by decide) hh p]
    dsimp only
    rw [if_neg (by decide), if_neg (by decide), if_neg (by decide),
      if_neg (by decide), if_pos rfl]

/-- Witness for C10 at a concrete record whose path contains a space: the
parse truncates `"a b.txt"` to `"a"`. -/
theorem C10_space_splitting_parse_witness :
    ' ' ∉ "copy".toList ∧ ' ' ∉ blake2b [1] ∧
    parseChange (mkChange "copy".toList (blake2b [1]) "a b.txt".toList) =
      ("copy".toList, blake2b [1], "a".toList) := by
  refine ⟨by decide, by decide, ?_⟩
  have h := (C10_space_splitting_parse "copy".toList (blake2b [1])
    "a b.txt".toList (by decide) (by decide)).1
  rw [h]
  decide

/-- C3 counterexample: two `create_file` calls with identical content are a
sequence of primitive operations after which invariant I1 fails — line 181
replaces the digest's bucket wholesale, orphaning the first file from
`hash_file_map` while it stays in `filepath_file_map`. -/
theorem C3_counterexample_two_creates :
    applySeq (newRepository ⟨[], []⟩)
      [RepoOp.createOp "a.txt".toList [1], RepoOp.createOp "b.txt".toList [1]]
      = some (create_file (create_file (newRepository ⟨[], []⟩)
        "a.txt".toList [1]) "b.txt".toList [1]) ∧
    ¬ i1 (create_file (create_file (newRepository ⟨[], []⟩)
      "a.txt".toList [1]) "b.txt".toList [1]) := by
  constructor
  · rfl
  · decide

/-- C3 (amended): invariant I1 — every tracked file occurs exactly once in
the bucket of its current hash, every bucket member is tracked under its
relative path, and both indices have the same total size — holds after any
sequence of primitive operations, scans and external drift in which each
`create_file` targets an untracked path and a digest with no live bucket,
each `modify_file` writes content whose digest is fresh (or unchanged with
the file alone in its bucket), each `move_file`/`copy_file` has a nonempty
source bucket, an on-disk source and an untracked destination, and each
`delete_file` targets a tracked on-disk file; scans and `prune` need no
restriction. -/
theorem C3_hash_index_consistency (ops : List RepoOp)
    (s2 : LocalDirectoryRepository)
    (hal : seqAllowed (newRepository ⟨[], []⟩) ops = true)
    (happ : applySeq (newRepository ⟨[], []⟩) ops = some s2) : i1 s2 :=
  wf_i1 s2 (wf_applySeq wf_newRepository hal happ)

/-- Witness for C3 (amended) at the concrete sequence `c3WitnessOps`. -/
theorem C3_hash_index_consistency_witness :
    seqAllowed (newRepository ⟨[], []⟩) c3WitnessOps = true ∧
    i1 ((applySeq (newRepository ⟨[], []⟩) c3WitnessOps).getD
      (newRepository ⟨[], []⟩)) :=
  ⟨by decide,
   C3_hash_index_consistency c3WitnessOps _ (by decide) (by decide)⟩

/-! ### Hash keys are never deleted (C4 support) -/

theorem mem_alKeys_alSet {κ α : Type} [DecidableEq κ] {m : List (κ × α)}
    {k2 : κ} (v : α) {k : κ} (hm : k ∈ alKeys m) :
    k ∈ alKeys (alSet m k2 v) := by
  cases hg : alGet m k2 with
  | none =>
    rw [alKeys_alSet_none hg]
    exact List.mem_append_left _ hm
  | some w =>
    rw [alKeys_alSet_some (by simp [hg]) v]
    exact hm

theorem keys_scanNewFile {s : LocalDirectoryRepository}
    {moved changes : List Str} {relp : Str} {k : Str}
    (hm : k ∈ alKeys s.hash_file_map) :
    k ∈ alKeys (scanNewFile s moved changes relp).1.hash_file_map := by
  simp only [scanNewFile]
  cases halg : alGet s.hash_file_map (mkLocalFile s.fs relp relp).last_hash with
  | some bucket =>
    dsimp only
    cases hfind : bucket.find?
        (fun oid => fsIsFile s.fs (getObj s oid).abs_path) with
    | some oid => exact mem_alKeys_alSet _ hm
    | none => exact mem_alKeys_alSet _ hm
  | none =>
    dsimp only
    exact mem_alKeys_alSet _ hm

theorem keys_scanKnownFile {s : LocalDirectoryRepository}
    {changes : List Str} {relp : Str} {k : Str}
    (hm : k ∈ alKeys s.hash_file_map) :
    k ∈ alKeys (scanKnownFile s changes relp).1.hash_file_map := by
  simp only [scanKnownFile]
  cases hg : alGet s.filepath_file_map relp with
  | none => exact hm
  | some fid =>
    dsimp only
    by_cases hEq : (getObj s fid).last_hash =
        blake2b ((fsGet s.fs (getObj s fid).abs_path).getD [])
    · rw [if_pos hEq]
      exact hm
    · rw [if_neg hEq]
      cases halg : alGet s.hash_file_map (getObj s fid).last_hash with
      | none => exact hm
      | some bucket =>
        dsimp only
        cases hnb : alGet (alSet s.hash_file_map (getObj s fid).last_hash
            (bucket.erase fid))
            (blake2b ((fsGet s.fs (getObj s fid).abs_path).getD [])) with
        | none =>
          dsimp only
          exact mem_alKeys_alSet _ (mem_alKeys_alSet _ hm)
        | some b0 =>
          dsimp only
          exact mem_alKeys_alSet _ (mem_alKeys_alSet _ hm)

theorem keys_scanFiles {s : LocalDirectoryRepository}
    {moved changes : List Str} {paths : List Str} {k : Str}
    (hm : k ∈ alKeys s.hash_file_map) :
    k ∈ alKeys (scanFiles s moved changes paths).1.hash_file_map := by
  induction paths generalizing s moved changes with
  | nil => exact hm
  | cons p rest ih =>
    rw [scanFiles]
    by_cases hp : (alGet s.filepath_file_map p).isSome
    · rw [if_pos hp]
      exact ih (keys_scanKnownFile hm)
    · rw [if_neg hp]
      exact ih (keys_scanNewFile hm)

theorem keys_scanDeletePass {s : LocalDirectoryRepository}
    {moved changes : List Str} {entries : List (Str × Nat)} {k : Str}
    (hm : k ∈ alKeys s.hash_file_map) :
    k ∈ alKeys (scanDeletePass s moved changes entries).1.hash_file_map := by
  induction entries generalizing s moved changes with
  | nil => exact hm
  | cons e rest ih =>
    obtain ⟨relp, fid⟩ := e
    rw [scanDeletePass]
    by_cases hisf : fsIsFile s.fs (getObj s fid).abs_path
    · rw [if_pos hisf]
      exact ih hm
    · rw [if_neg hisf]
      exact ih (mem_alKeys_alSet _ hm)

/-- C4 counterexample: `create_file` then `delete_file` of its sole tracked
file leaves `hash_file_map` with the file's digest still present as a key
mapped to the empty list after `delete_file` has returned — the claim says
the key is deleted before the operation returns. -/
theorem C4_counterexample_empty_bucket_persists :
    (delete_file (create_file (newRepository ⟨[], []⟩) "a.txt".toList [1])
      "a.txt".toList).map
      (fun s => alGet s.hash_file_map (blake2b [1])) = some (some []) := by
  decide

/-- C4 (amended): no operation ever deletes a key of `hash_file_map`:
`delete_file` leaves the key set exactly unchanged, `modify_file` and
`update_status` never remove a key (they may add one), and deleting a
bucket's last member leaves that key mapped to the empty list. An emptied
bucket therefore outlives the operation that emptied it, persisting until a
later `create_file`/`modify_file` overwrites that key. -/
theorem C4_empty_buckets_persist :
    (∀ s rel s2, delete_file s rel = some s2 →
      alKeys s2.hash_file_map = alKeys s.hash_file_map) ∧
    (∀ s rel c s2, modify_file s rel c = some s2 →
      ∀ k ∈ alKeys s.hash_file_map, k ∈ alKeys s2.hash_file_map) ∧
    (∀ s k, k ∈ alKeys s.hash_file_map →
      k ∈ alKeys (update_status s).1.hash_file_map) ∧
    (∀ s rel fid s2, alGet s.filepath_file_map rel = some fid →
      bucketOf s (getObj s fid).last_hash = [fid] →
      delete_file s rel = some s2 →
      alGet s2.hash_file_map (getObj s fid).last_hash = some []) := by
  refine ⟨?_, ?_, ?_, ?_⟩
  · intro s rel s2 happ
    rw [delete_file] at happ
    cases hg : alGet s.filepath_file_map rel with
    | none => simp [hg] at happ
    | some fid =>
      simp only [hg] at happ
      cases hfs : fsGet s.fs (getObj s fid).abs_path with
      | none => simp [hfs] at happ
      | some b =>
        simp only [hfs] at happ
        cases hbg : alGet s.hash_file_map (getObj s fid).last_hash with
        | none => simp [hbg] at happ
        | some bucket =>
          simp only [hbg] at happ
          by_cases hmem : fid ∈ bucket
          · rw [if_pos hmem] at happ
            injection happ with happ
            rw [← happ]
            exact alKeys_alSet_some (by simp [hbg]) _
          · rw [if_neg hmem] at happ
            exact absurd happ (by simp)
  · intro s rel c s2 happ k hk
    rw [modify_file] at happ
    cases hg : alGet s.filepath_file_map rel with
    | none => simp [hg] at happ
    | some fid =>
      simp only [hg] at happ
      cases hbg : alGet s.hash_file_map (getObj s fid).last_hash with
      | none => simp [hbg] at happ
      | some bucket =>
        simp only [hbg] at happ
        by_cases hmem : fid ∈ bucket
        · rw [if_pos hmem] at happ
          injection happ with happ
          rw [← happ]
          exact mem_alKeys_alSet _ (mem_alKeys_alSet _ hk)
        · rw [if_neg hmem] at happ
          exact absurd happ (by simp)
  · intro s k hk
    rw [update_status]
    exact keys_scanDeletePass (keys_scanFiles hk)
  · intro s rel fid s2 hg hbkt happ
    have hbg : alGet s.hash_file_map (getObj s fid).last_hash = some [fid] := by
      have : bucketOf s (getObj s fid).last_hash ≠ [] := by
        rw [hbkt]
        simp
      have h2 := bucketOf_get this
      rw [hbkt] at h2
      exact h2
    rw [delete_file] at happ
    simp only [hg] at happ
    cases hfs : fsGet s.fs (getObj s fid).abs_path with
    | none => simp [hfs] at happ
    | some b =>
      simp only [hfs, hbg] at happ
      rw [if_pos (by simp : fid ∈ [fid])] at happ
      injection happ with happ
      rw [← happ]
      show alGet (alSet s.hash_file_map (getObj s fid).last_hash
        ([fid].erase fid)) (getObj s fid).last_hash = some []
      rw [alGet_alSet, if_pos rfl, List.erase_cons_head]

/-- Witness for C4 (amended) at the concrete create-then-delete run. -/
theorem C4_empty_buckets_persist_witness :
    alKeys ((delete_file (create_file (newRepository ⟨[], []⟩)
        "a.txt".toList [1]) "a.txt".toList).getD
      (newRepository ⟨[], []⟩)).hash_file_map =
      alKeys (create_file (newRepository ⟨[], []⟩)
        "a.txt".toList [1]).hash_file_map ∧
    alGet ((delete_file (create_file (newRepository ⟨[], []⟩)
        "a.txt".toList [1]) "a.txt".toList).getD
      (newRepository ⟨[], []⟩)).hash_file_map
      (getObj (create_file (newRepository ⟨[], []⟩) "a.txt".toList [1])
        0).last_hash = some [] :=
  ⟨C4_empty_buckets_persist.1
     (create_file (newRepository ⟨[], []⟩) "a.txt".toList [1])
     "a.txt".toList _ (by decide),
   C4_empty_buckets_persist.2.2.2
     (create_file (newRepository ⟨[], []⟩) "a.txt".toList [1])
     "a.txt".toList 0 _ (by decide) (by decide) (by decide)⟩

/-- C8 counterexample: over a tree whose only content is the nested empty
directory chain `d/e`, a single `prune()` removes only the leaf `e` — the
bottom-up walk reads each directory's pre-removal listing, so `d` (whose
snapshot listing still holds `e`) survives and remains as an empty
directory, contradicting the claim that no empty directory remains. -/
theorem C8_counterexample_nested_empty_dirs :
    (prune (newRepository ⟨[], ["d".toList, "d/e".toList]⟩)).fs.dirs =
      ["d".toList] ∧
    dirHasEntry (prune (newRepository ⟨[], ["d".toList, "d/e".toList]⟩)).fs
      "d".toList = false := by decide

/-- C8 (amended): a single `prune()` removes exactly those directories that
had no entry at all in the pre-call tree (the bottom-up walk takes each
directory's listing before its descendants are processed, so a directory
whose only entries were empty subdirectories survives this call), then
removes every on-disk file at an untracked relative path and keeps every
tracked file. After it returns no untracked file remains, but an empty
directory can remain. -/
theorem C8_prune_files_and_dirs :
    (∀ s rel, alGet s.filepath_file_map rel = none →
      fsGet (prune s).fs rel = none) ∧
    (∀ s rel fid, (alKeys s.fs.files).Nodup →
      alGet s.filepath_file_map rel = some fid →
      fsGet (prune s).fs rel = fsGet s.fs rel) ∧
    (∀ s d, dirHasEntry s.fs d = false → d ∉ (prune s).fs.dirs) ∧
    (∀ s d, d ∈ (prune s).fs.dirs ↔
      d ∈ s.fs.dirs ∧ dirHasEntry s.fs d = true) := by
  have hdirs : ∀ s d, d ∈ (prune s).fs.dirs ↔
      d ∈ s.fs.dirs ∧ dirHasEntry s.fs d = true := by
    intro s d
    show d ∈ s.fs.dirs.filter (fun d2 => dirHasEntry s.fs d2) ↔ _
    rw [List.mem_filter]
  refine ⟨?_, ?_, ?_, hdirs⟩
  · intro s rel hg
    rw [fsGet, alGet_eq_none_iff]
    intro hk
    obtain ⟨e, he, hek⟩ := List.mem_map.mp hk
    have hmf := List.mem_filter.mp he
    rw [hek] at hmf
    rw [hg] at hmf
    simp at hmf
  · intro s rel fid hnd hg
    cases hfs : fsGet s.fs rel with
    | none =>
      rw [fsGet, alGet_eq_none_iff]
      intro hk
      obtain ⟨e, he, hek⟩ := List.mem_map.mp hk
      have hmf := List.mem_filter.mp he
      rw [fsGet, alGet_eq_none_iff] at hfs
      exact hfs (hek ▸ List.mem_map.mpr ⟨e, hmf.1, rfl⟩)
    | some b =>
      have hmem : (rel, b) ∈ s.fs.files := alGet_mem hfs
      have hpred : (fun f => (alGet s.filepath_file_map f.1).isSome)
          (rel, b) = true := by simp [hg]
      have hmf : (rel, b) ∈ s.fs.files.filter
          (fun f => (alGet s.filepath_file_map f.1).isSome) :=
        List.mem_filter.mpr ⟨hmem, hpred⟩
      have hndf : (alKeys (s.fs.files.filter
          (fun f => (alGet s.filepath_file_map f.1).isSome))).Nodup :=
        List.Nodup.sublist ((List.filter_sublist _).map _) hnd
      show alGet _ rel = some b
      exact alGet_of_mem hmf hndf
  · intro s d hde hmem
    have := ((hdirs s d).mp hmem).2
    rw [hde] at this
    exact Bool.noConfusion this

/-- Witness for C8 (amended) at `c8WitnessState`. -/
theorem C8_prune_files_and_dirs_witness :
    fsGet (prune c8WitnessState).fs "u.txt".toList = none ∧
    fsGet (prune c8WitnessState).fs "d/t.txt".toList = some [1] ∧
    "e".toList ∉ (prune c8WitnessState).fs.dirs := by
  refine ⟨?_, ?_, ?_⟩
  · exact C8_prune_files_and_dirs.1 c8WitnessState "u.txt".toList (by decide)
  · have := C8_prune_files_and_dirs.2.1 c8WitnessState "d/t.txt".toList 0
      (by decide) (by decide)
    rw [this]
    decide
  · exact C8_prune_files_and_dirs.2.2.1 c8WitnessState "e".toList (by decide)

/-- C5: a file discovered at a new path whose digest already has a bucket
member still present on disk is classified `create` when `last_action` is
INIT (the first scan after construction) and `copy` in every other state; in
particular, over a directory holding identical files at `a` and `b` the
first scan emits `create` for both, and a scan after a third identical file
appears at `c3` emits `copy` for it. -/
theorem C5_first_scan_create_vs_copy (a b c3 : Str) (c : Bytes)
    (hab : a ≠ b) (hac : a ≠ c3) (hbc : b ≠ c3) :
    (∀ s moved changes relp bucket oid,
      alGet s.hash_file_map (mkLocalFile s.fs relp relp).last_hash =
        some bucket →
      bucket.find? (fun o => fsIsFile s.fs (getObj s o).abs_path) = some oid →
      (scanNewFile s moved changes relp).2.2 = changes ++
        [mkChange (if s.last_action = LocalDirectoryRepositoryState.INIT
          then "create".toList else "copy".toList)
          (mkLocalFile s.fs relp relp).last_hash relp]) ∧
    (update_status (newRepository ⟨[(a, c), (b, c)], []⟩)).2 =
      [mkChange "create".toList (blake2b c) a,
       mkChange "create".toList (blake2b c) b] ∧
    (update_status (setFS
        (update_status (newRepository ⟨[(a, c), (b, c)], []⟩)).1
        ⟨[(a, c), (b, c), (c3, c)], []⟩)).2 =
      [mkChange "copy".toList (blake2b c) c3] := by
  refine ⟨?_, ?_, ?_⟩
  · intro s moved changes relp bucket oid hbkt hfind
    simp only [scanNewFile, hbkt, hfind]
  · simp [update_status, scanFiles, scanNewFile, scanKnownFile,
      scanDeletePass, newRepository, mkLocalFile, fsGet, fsIsFile, getObj,
      alGet, alSet, bucketOf, List.find?, hab]
  · simp [update_status, scanFiles, scanNewFile, scanKnownFile,
      scanDeletePass, setFS, newRepository, mkLocalFile, fsGet, fsIsFile,
      getObj, alGet, alSet, bucketOf, List.find?, hab, hac, hbc]

/-- Witness for C5 at the spec's concrete test: identical bytes at `a.txt`
and `b.txt`, then a third copy at `c.txt`. -/
theorem C5_first_scan_create_vs_copy_witness :
    (update_status (newRepository
        ⟨[("a.txt".toList, [1]), ("b.txt".toList, [1])], []⟩)).2 =
      [mkChange "create".toList (blake2b [1]) "a.txt".toList,
       mkChange "create".toList (blake2b [1]) "b.txt".toList] ∧
    (update_status (setFS (update_status (newRepository
        ⟨[("a.txt".toList, [1]), ("b.txt".toList, [1])], []⟩)).1
        ⟨[("a.txt".toList, [1]), ("b.txt".toList, [1]),
          ("c.txt".toList, [1])], []⟩)).2 =
      [mkChange "copy".toList (blake2b [1]) "c.txt".toList] :=
  ⟨(C5_first_scan_create_vs_copy "a.txt".toList "b.txt".toList
      "c.txt".toList [1] (by decide) (by decide) (by decide)).2.1,
   (C5_first_scan_create_vs_copy "a.txt".toList "b.txt".toList
      "c.txt".toList [1] (by decide) (by decide) (by decide)).2.2⟩

/-- C6: when the single tracked file at `x` is renamed on disk to `y`
between scans, the next `update_status` emits exactly one `move` record for
that content and no `delete` or `create` record at all. -/
theorem C6_move_detection (x y : Str) (c : Bytes) (hxy : x ≠ y) :
    (update_status (setFS (update_status
        (newRepository ⟨[(x, c)], []⟩)).1 ⟨[(y, c)], []⟩)).2 =
      [mkChange "move".toList (blake2b c) y] := by
  have hyx : y ≠ x := Ne.symm hxy
  simp [update_status, scanFiles, scanNewFile, scanKnownFile, scanDeletePass,
    setFS, newRepository, mkLocalFile, fsGet, fsIsFile, getObj, alGet, alSet,
    bucketOf, List.find?, hxy, hyx]

/-- Witness for C6 at the spec's concrete rename `x.txt` to `y.txt`. -/
theorem C6_move_detection_witness :
    (update_status (setFS (update_status
        (newRepository ⟨[("x.txt".toList, [1])], []⟩)).1
        ⟨[("y.txt".toList, [1])], []⟩)).2 =
      [mkChange "move".toList (blake2b [1]) "y.txt".toList] :=
  C6_move_detection "x.txt".toList "y.txt".toList [1] (by decide)

/-- C7: with source and destination both tracking one file at `t` with bytes
`c`, an untracked file written directly into the destination at `u` and the
destination's copy of `t` overwritten with different bytes `c2`, one
`syncCycle` removes `u` (the destination's `prune`) and restores the
destination's `t` to the source content `c`. -/
theorem C7_drift_healing (t u : Str) (c c2 d : Bytes) (htu : t ≠ u)
    (hsp : ' ' ∉ t) (hcc : c ≠ c2) :
    (syncCycle ((update_status (newRepository ⟨[(t, c)], []⟩)).1)
      (setFS ((update_status (newRepository ⟨[(t, c)], []⟩)).1)
        ⟨[(t, c2), (u, d)], []⟩)).map
      (fun r => (fsGet r.2.1.fs t, fsGet r.2.1.fs u)) =
      some (some c, none) := by
  have hne : blake2b c ≠ blake2b c2 := fun h => hcc (blake2b_injective h)
  have hut : u ≠ t := Ne.symm htu
  have hne2 : blake2b c2 ≠ blake2b c := Ne.symm hne
  simp [syncCycle, update_status, scanFiles, scanNewFile, scanKnownFile,
    scanDeletePass, replayAll, restoreAll, restoreChange, replayChange,
    prune, dirHasEntry, setFS, newRepository, mkLocalFile, fsGet, fsIsFile,
    fsWrite, getObj, alGet, alSet, alDel, bucketOf, List.find?, modify_file,
    get_file_at_path, localFileRead, htu, hut, hne, hne2,
    parseChange_mkChange, blake2b_no_space, takeWhile_bne_eq_self hsp]

/-- Witness for C7 at concrete paths and contents. -/
theorem C7_drift_healing_witness :
    (syncCycle ((update_status (newRepository
        ⟨[("t.txt".toList, [1])], []⟩)).1)
      (setFS ((update_status (newRepository ⟨[("t.txt".toList, [1])], []⟩)).1)
        ⟨[("t.txt".toList, [2]), ("u.txt".toList, [3])], []⟩)).map
      (fun r => (fsGet r.2.1.fs "t.txt".toList, fsGet r.2.1.fs "u.txt".toList))
      = some (some [1], none) :=
  C7_drift_healing "t.txt".toList "u.txt".toList [1] [2] [3]
    (by decide) (by decide) (by decide)

end Dirsync
